import Mathlib

/-!
# Verification of the incremental JSON result store

This development models, at the level of character sequences, the incremental
result-store mechanism of `src/Lahore/9_Crl_Sh_P/main.py`:
`initialize_json_file`, `write_case_incrementally` and `finalize_json_file`.
JSON documents are modelled by the inductive type `JVal` (numbers restricted to
integers; floating point is out of scope), serialized by a faithful model of
Python's `json.dump(..., indent=2, ensure_ascii=False)` and re-read by a
faithful model of `json.loads` (a recursive-descent parser).  File contents are
`List Char`, and the store state tracks the on-disk file, the sidecar summary
file and the in-memory `active_json_files` entry.
-/

/-- JSON values.  Numbers are modelled as integers only: the scripts never
produce fractional numbers, and floating point is outside the scope of this
model (the parser rejects fraction/exponent forms rather than misreading
them). -/
inductive JVal where
  | jnull : JVal
  | jbool : Bool → JVal
  | jnum : Int → JVal
  | jstr : String → JVal
  | jarr : List JVal → JVal
  | jobj : List (String × JVal) → JVal

namespace JVal

mutual

/-- Boolean (Python `==`) equality of JSON values. -/
def jeqb : JVal → JVal → Bool
  | jnull, jnull => true
  | jbool a, jbool b => a == b
  | jnum a, jnum b => a == b
  | jstr a, jstr b => a == b
  | jarr xs, jarr ys => jeqbL xs ys
  | jobj fs, jobj gs => jeqbF fs gs
  | _, _ => false

/-- Elementwise equality of JSON value lists. -/
def jeqbL : List JVal → List JVal → Bool
  | [], [] => true
  | x :: xs, y :: ys => jeqb x y && jeqbL xs ys
  | _, _ => false

/-- Elementwise equality of JSON object member lists. -/
def jeqbF : List (String × JVal) → List (String × JVal) → Bool
  | [], [] => true
  | (k, v) :: fs, (l, w) :: gs => k == l && jeqb v w && jeqbF fs gs
  | _, _ => false

end

theorem jeqb_sound_all (n : Nat) :
    (∀ a b : JVal, sizeOf a ≤ n → (jeqb a b = true ↔ a = b)) ∧
    (∀ xs ys : List JVal, sizeOf xs ≤ n → (jeqbL xs ys = true ↔ xs = ys)) ∧
    (∀ fs gs : List (String × JVal), sizeOf fs ≤ n → (jeqbF fs gs = true ↔ fs = gs)) := by
  induction n with
  | zero =>
    refine ⟨fun a b h => ?_, fun xs ys h => ?_, fun fs gs h => ?_⟩
    · cases a <;> simp_arith at h
    · cases xs <;> simp_arith at h
    · cases fs <;> simp_arith at h
  | succ n ih =>
    obtain ⟨ihv, ihl, ihf⟩ := ih
    refine ⟨fun a b h => ?_, fun xs ys h => ?_, fun fs gs h => ?_⟩
    · cases a <;> cases b <;>
        simp_all [jeqb, ihl, ihf] <;>
        first
          | rfl
          | (apply ihl; simp_arith at h ⊢; omega)
          | (apply ihf; simp_arith at h ⊢; omega)
    · cases xs with
      | nil => cases ys <;> simp [jeqbL]
      | cons x xs =>
        cases ys with
        | nil => simp [jeqbL]
        | cons y ys =>
          simp_arith at h
          rw [jeqbL]
          simp only [Bool.and_eq_true]
          rw [ihv x y (by omega), ihl xs ys (by omega), List.cons_eq_cons]
    · cases fs with
      | nil => cases gs <;> simp [jeqbF]
      | cons f fs =>
        cases gs with
        | nil => simp [jeqbF]
        | cons g gs =>
          obtain ⟨k, v⟩ := f
          obtain ⟨l, w⟩ := g
          simp_arith at h
          rw [jeqbF]
          simp only [Bool.and_eq_true]
          rw [ihv v w (by omega), ihf fs gs (by omega)]
          constructor
          · rintro ⟨⟨hk, hv⟩, hf⟩
            simp_all [beq_iff_eq]
          · rintro h
            injection h with h1 h2
            injection h1 with h1a h1b
            subst h1a h1b h2
            simp

theorem jeqb_iff (a b : JVal) : jeqb a b = true ↔ a = b :=
  (jeqb_sound_all (sizeOf a)).1 a b le_rfl

instance : DecidableEq JVal := fun a b =>
  decidable_of_iff (jeqb a b = true) (jeqb_iff a b)

/-- Python truthiness (`bool(x)`) of a JSON value: `None`, `False`, `0`, `""`,
`[]` and `{}` are falsy, everything else truthy. -/
def jtruthy : JVal → Bool
  | jnull => false
  | jbool b => b
  | jnum n => n ≠ 0
  | jstr s => s ≠ ""
  | jarr xs => !xs.isEmpty
  | jobj fs => !fs.isEmpty

/-- `d.get(k)` on a Python dict built by `json.loads`: when the JSON text held
duplicate keys the **last** binding wins, exactly as in CPython's dict
construction. -/
def objGet (fs : List (String × JVal)) (k : String) : Option JVal :=
  match fs with
  | [] => none
  | (k', v) :: rest =>
    match objGet rest k with
    | some w => some w
    | none => if k' = k then some v else none

end JVal

open JVal

/-! ## Serialization: `json.dump(value, f, indent=2, ensure_ascii=False)` -/

/-- The decimal digit character for `n < 10`. -/
def digitChar (n : Nat) : Char := Char.ofNat (48 + n)

/-- The lowercase hexadecimal digit character for `n < 16`. -/
def hexChar (n : Nat) : Char := if n < 10 then Char.ofNat (48 + n) else Char.ofNat (87 + n)

/-- Decimal digits of a positive natural number, most significant first
(`fuel`-driven; `fuel ≥ n` suffices). -/
def natToCharsAux : Nat → Nat → List Char
  | 0, _ => []
  | _ + 1, 0 => []
  | fuel + 1, n + 1 => natToCharsAux fuel ((n + 1) / 10) ++ [digitChar ((n + 1) % 10)]

/-- `str(n)` for a natural number. -/
def natToChars (n : Nat) : List Char := if n = 0 then ['0'] else natToCharsAux n n

/-- `str(n)` for a Python integer. -/
def intToChars (n : Int) : List Char :=
  if n < 0 then '-' :: natToChars n.natAbs else natToChars n.toNat

/-- The escape of one character inside a JSON string literal, as produced by
`json.dumps(..., ensure_ascii=False)`: `"` and `\` are escaped, the five
control characters with short escapes use them, all other control characters
below `0x20` become `\u00XX` (lowercase hex), and everything else is emitted
raw. -/
def escChar (c : Char) : List Char :=
  if c = '"' then ['\\', '"']
  else if c = '\\' then ['\\', '\\']
  else if c = Char.ofNat 8 then ['\\', 'b']
  else if c = Char.ofNat 9 then ['\\', 't']
  else if c = Char.ofNat 10 then ['\\', 'n']
  else if c = Char.ofNat 12 then ['\\', 'f']
  else if c = Char.ofNat 13 then ['\\', 'r']
  else if c.toNat < 32 then
    ['\\', 'u', '0', '0', hexChar (c.toNat / 16), hexChar (c.toNat % 16)]
  else [c]

/-- The body of a JSON string literal for the Lean string `s`. -/
def escStr (s : String) : List Char := (s.data.map escChar).flatten

/-- A serialized JSON string literal, quotes included. -/
def dumpStr (s : String) : List Char := '"' :: (escStr s ++ ['"'])

/-- The 2-space indentation prefix at nesting depth `k`. -/
def indentChars (k : Nat) : List Char := List.replicate (2 * k) ' '

mutual

/-- `json.dumps(v, indent=2, ensure_ascii=False)`, at nesting depth `k`
(`k = 0` at top level).  Container elements are each placed on their own line,
indented two more spaces, separated by `",\n"`; the closing bracket returns to
the enclosing indentation. -/
def jdump (k : Nat) : JVal → List Char
  | jnull => ['n', 'u', 'l', 'l']
  | jbool true => ['t', 'r', 'u', 'e']
  | jbool false => ['f', 'a', 'l', 's', 'e']
  | jnum n => intToChars n
  | jstr s => dumpStr s
  | jarr [] => ['[', ']']
  | jarr (x :: xs) =>
    '[' :: '\n' :: (indentChars (k + 1) ++ jdump (k + 1) x ++ jdumpItems (k + 1) xs
      ++ '\n' :: (indentChars k ++ [']']))
  | jobj [] => ['{', '}']
  | jobj (f :: fs) =>
    '{' :: '\n' :: (indentChars (k + 1) ++ jdumpField (k + 1) f ++ jdumpFields (k + 1) fs
      ++ '\n' :: (indentChars k ++ ['}']))

/-- The `",\n"`-separated continuation items of a serialized array. -/
def jdumpItems (k : Nat) : List JVal → List Char
  | [] => []
  | x :: xs => ',' :: '\n' :: (indentChars k ++ jdump k x ++ jdumpItems k xs)

/-- One serialized `"key": value` member of an object. -/
def jdumpField (k : Nat) : String × JVal → List Char
  | (key, v) => dumpStr key ++ ':' :: ' ' :: jdump k v

/-- The `",\n"`-separated continuation members of a serialized object. -/
def jdumpFields (k : Nat) : List (String × JVal) → List Char
  | [] => []
  | f :: fs => ',' :: '\n' :: (indentChars k ++ jdumpField k f ++ jdumpFields k fs)

end

/-! ## Parsing: `json.loads` (strict mode, integer numbers only) -/

/-- JSON inter-token whitespace (`json.decoder` skips exactly space, tab,
newline and carriage return). -/
def isJWs (c : Char) : Bool := c = ' ' || c = '\t' || c = '\n' || c = '\r'

/-- Skip JSON whitespace. -/
def skipWs (cs : List Char) : List Char := cs.dropWhile isJWs

/-- Numeric value of a hexadecimal digit character, if it is one. -/
def hexVal (c : Char) : Option Nat :=
  if 48 ≤ c.toNat ∧ c.toNat ≤ 57 then some (c.toNat - 48)
  else if 97 ≤ c.toNat ∧ c.toNat ≤ 102 then some (c.toNat - 87)
  else if 65 ≤ c.toNat ∧ c.toNat ≤ 70 then some (c.toNat - 55)
  else none

/-! Body of a JSON string literal, after the opening quote: raw characters
must be `≥ 0x20` (strict mode) and not `"` or `\`; the short escapes and
`\uXXXX` are recognised.  Escapes denoting surrogate code points are rejected
(Python would combine surrogate pairs; such documents are outside this
model). -/

mutual

/-- Body of a JSON string literal, after the opening quote. -/
def parseStrAux : List Char → Option (List Char × List Char)
  | [] => none
  | c :: rest =>
    if c = '"' then some ([], rest)
    else if c = '\\' then parseEsc rest
    else if c.toNat < 32 then none
    else
      match parseStrAux rest with
      | some (s, t) => some (c :: s, t)
      | none => none

/-- One escape sequence, after the backslash. -/
def parseEsc : List Char → Option (List Char × List Char)
  | [] => none
  | e :: rest =>
    if e = 'u' then parseHex4 rest
    else
      let esc : Option Char :=
        if e = '"' then some '"'
        else if e = '\\' then some '\\'
        else if e = '/' then some '/'
        else if e = 'b' then some (Char.ofNat 8)
        else if e = 'f' then some (Char.ofNat 12)
        else if e = 'n' then some (Char.ofNat 10)
        else if e = 'r' then some (Char.ofNat 13)
        else if e = 't' then some (Char.ofNat 9)
        else none
      match esc with
      | some c =>
        match parseStrAux rest with
        | some (s, t) => some (c :: s, t)
        | none => none
      | none => none

/-- The four hex digits of a `\uXXXX` escape. -/
def parseHex4 : List Char → Option (List Char × List Char)
  | h1 :: h2 :: h3 :: h4 :: rest =>
    match hexVal h1, hexVal h2, hexVal h3, hexVal h4 with
    | some a, some b, some c, some d =>
      let n := a * 4096 + b * 256 + c * 16 + d
      if 0xd800 ≤ n ∧ n ≤ 0xdfff then none
      else
        match parseStrAux rest with
        | some (s, t) => some (Char.ofNat n :: s, t)
        | none => none
    | _, _, _, _ => none
  | _ => none

end

/-- Is `c` a decimal digit (by code point, `0x30`-`0x39`)? -/
def isDig (c : Char) : Bool := 48 ≤ c.toNat && c.toNat ≤ 57

/-- Does the list start with a decimal digit? -/
def headDigit : List Char → Bool
  | [] => false
  | c :: _ => isDig c

/-- Characters that would continue a number token into a float form
(fraction or exponent), which this integer-only model rejects. -/
def isNumCont (c : Char) : Bool := isDig c || c = '.' || c = 'e' || c = 'E'

/-- Does the list start with a character that would extend a number token? -/
def headNumCont : List Char → Bool
  | [] => false
  | c :: _ => isNumCont c

/-- The integer part of a JSON number: `0`, or a nonzero digit followed by
digits (leading zeros are a syntax error, as in `json.loads`). -/
def parseIntPart : List Char → Option (Nat × List Char)
  | [] => none
  | c :: rest =>
    if c = '0' then
      if headDigit rest then none else some (0, rest)
    else if isDig c then
      let ds := rest.takeWhile isDig
      let rest' := rest.dropWhile isDig
      some (ds.foldl (fun a d => 10 * a + (d.toNat - 48)) (c.toNat - 48), rest')
    else none

/-- A JSON number token (integers only: a following `.`, `e` or `E` makes the
parse fail instead of producing a float). -/
def parseNum (cs : List Char) : Option (JVal × List Char) :=
  match cs with
  | [] => none
  | c :: rest =>
    if c = '-' then
      match parseIntPart rest with
      | some (n, rest') =>
        if headNumCont rest' then none else some (jnum (-(n : Int)), rest')
      | none => none
    else
      match parseIntPart (c :: rest) with
      | some (n, rest') =>
        if headNumCont rest' then none else some (jnum (n : Int), rest')
      | none => none

/-- Recognise an exact literal continuation (for `null`, `true`, `false`). -/
def matchLit : List Char → List Char → Option (List Char)
  | [], rest => some rest
  | l :: ls, c :: rest => if c = l then matchLit ls rest else none
  | _ :: _, [] => none

mutual

/-- One JSON value, fuel-driven recursive descent (mirrors
`json.decoder.JSONDecoder` in strict mode, restricted to integer numbers). -/
def parseVal : Nat → List Char → Option (JVal × List Char)
  | 0, _ => none
  | fuel + 1, cs =>
    match cs with
    | [] => none
    | c :: rest =>
      if c = 'n' then (matchLit ['u', 'l', 'l'] rest).map (fun r => (jnull, r))
      else if c = 't' then (matchLit ['r', 'u', 'e'] rest).map (fun r => (jbool true, r))
      else if c = 'f' then (matchLit ['a', 'l', 's', 'e'] rest).map (fun r => (jbool false, r))
      else if c = '"' then
        match parseStrAux rest with
        | some (s, t) => some (jstr (String.mk s), t)
        | none => none
      else if c = '[' then
        match skipWs rest with
        | [] => none
        | c1 :: r1 =>
          if c1 = ']' then some (jarr [], r1)
          else
            match parseVal fuel (c1 :: r1) with
            | some (v, r) =>
              match parseItems fuel r with
              | some (vs, r') => some (jarr (v :: vs), r')
              | none => none
            | none => none
      else if c = '{' then
        match skipWs rest with
        | [] => none
        | c1 :: r1 =>
          if c1 = '}' then some (jobj [], r1)
          else
            match parseField fuel (c1 :: r1) with
            | some (f, r) =>
              match parseFields fuel r with
              | some (fs, r') => some (jobj (f :: fs), r')
              | none => none
            | none => none
      else if c = '-' ∨ isDig c then parseNum cs
      else none

/-- After one array element: `,` and another element, or `]` to finish. -/
def parseItems : Nat → List Char → Option (List JVal × List Char)
  | 0, _ => none
  | fuel + 1, cs =>
    match skipWs cs with
    | [] => none
    | c :: r =>
      if c = ']' then some ([], r)
      else if c = ',' then
        match parseVal fuel (skipWs r) with
        | some (v, r') =>
          match parseItems fuel r' with
          | some (vs, r'') => some (v :: vs, r'')
          | none => none
        | none => none
      else none

/-- One `"key": value` member of an object. -/
def parseField : Nat → List Char → Option ((String × JVal) × List Char)
  | 0, _ => none
  | fuel + 1, cs =>
    match cs with
    | [] => none
    | c :: rest =>
      if c = '"' then
        match parseStrAux rest with
        | some (s, t) =>
          match skipWs t with
          | [] => none
          | c1 :: r =>
            if c1 = ':' then
              match parseVal fuel (skipWs r) with
              | some (v, r') => some ((String.mk s, v), r')
              | none => none
            else none
        | none => none
      else none

/-- After one object member: `,` and another member, or `}` to finish. -/
def parseFields : Nat → List Char → Option (List (String × JVal) × List Char)
  | 0, _ => none
  | fuel + 1, cs =>
    match skipWs cs with
    | [] => none
    | c :: r =>
      if c = '}' then some ([], r)
      else if c = ',' then
        match parseField fuel (skipWs r) with
        | some (f, r') =>
          match parseFields fuel r' with
          | some (fs, r'') => some (f :: fs, r'')
          | none => none
        | none => none
      else none

end

/-- `json.loads`: exactly one JSON document, with optional surrounding
whitespace. -/
def jsonLoads (cs : List Char) : Option JVal :=
  match parseVal (cs.length + 1) (skipWs cs) with
  | some (v, rest) => if skipWs rest = [] then some v else none
  | none => none


/-! ## Python string helpers used by `initialize_json_file` -/

/-- Python `str.isspace` / the character set stripped by `str.strip()` with no
arguments (Unicode whitespace). -/
def pyIsSpace (c : Char) : Bool :=
  let v := c.toNat
  (9 ≤ v && v ≤ 13) || (28 ≤ v && v ≤ 31) || v == 32 || v == 0x85 || v == 0xa0 ||
    v == 0x1680 || (0x2000 ≤ v && v ≤ 0x200a) || v == 0x2028 || v == 0x2029 ||
    v == 0x202f || v == 0x205f || v == 0x3000

/-- Python `s.strip()`. -/
def pyStrip (cs : List Char) : List Char :=
  ((cs.dropWhile pyIsSpace).reverse.dropWhile pyIsSpace).reverse

/-- Python `s.rstrip()`. -/
def pyRstrip (cs : List Char) : List Char :=
  (cs.reverse.dropWhile pyIsSpace).reverse

/-- Python `s.rstrip(']')`: remove every trailing `]`. -/
def pyRstripBr (cs : List Char) : List Char :=
  (cs.reverse.dropWhile (fun c => c == ']')).reverse

/-! ## The store state

One logical output path of the scraper: the JSON array file, the sidecar
summary file, and the in-memory `active_json_files[range_name]` entry
(`case_count` and `seen_cases`).  `file = none` models a path where no file
exists yet. -/

/-- The sidecar summary record written by `finalize_json_file` (the fields
that depend on the session; `case_type`, paths and the constant `mode` string
carry no information). -/
structure Summary where
  totalCases : Nat
  extractionDate : String
deriving DecidableEq

/-- The on-disk state at one output path. -/
structure Disk where
  file : Option (List Char)
  summaryFile : Option Summary
deriving DecidableEq

/-- The in-memory `active_json_files[range_name]` entry. -/
structure FileInfo where
  caseCount : Nat
  seenCases : List JVal
deriving DecidableEq

/-- The whole store state for one output path. -/
structure StoreSt where
  disk : Disk
  info : Option FileInfo
deriving DecidableEq

/-- The two characters written to a brand-new file: `[` and a newline, an
intentionally unterminated array. -/
def newArrFile : List Char := ['[', '\n']

/-- Python `set.add` on the model's key set. -/
def setAdd (l : List JVal) (k : JVal) : List JVal := if k ∈ l then l else l ++ [k]

/-- Python hashability of an embedded JSON value: `None`, booleans, numbers
and strings are hashable; lists and dicts are not, and `set.add` or a set
membership test raises `TypeError` on them. -/
def hashableJ : JVal → Bool
  | JVal.jarr _ => false
  | JVal.jobj _ => false
  | _ => true

/-- `true` exactly when the recovery loop of `initialize_json_file` raises a
`TypeError` at `existing_cases.add(case["Case_No"])` on this element: the
element is a dict whose truthy `Case_No` is itself unhashable (a list or a
dict).  That exception is not a `json.JSONDecodeError`, so it escapes the
inner handler; the outer `except` then rewrites the file to `[\n` and the
entry is installed with `case_count = 0` and empty `seen_cases`. -/
def scanRaisesAt : JVal → Bool
  | JVal.jobj fs =>
    match objGet fs "Case_No" with
    | some k => jtruthy k && !(hashableJ k)
    | none => false
  | _ => false

/-- One step of the recovery loop in `initialize_json_file`: an element that
is a dict with a truthy `Case_No` contributes its key to `existing_cases` and
bumps `case_count`; every other element is skipped (but was still parsed).
The set insert is total here, so this step models the loop only on elements
where `scanRaisesAt` is `false` — on a truthy unhashable key the real
`set.add` raises `TypeError` instead and the outer handler starts fresh;
recovery theorems carry that side condition. -/
def scanStep (acc : List JVal × Nat) (v : JVal) : List JVal × Nat :=
  match v with
  | JVal.jobj fs =>
    match objGet fs "Case_No" with
    | some k => if jtruthy k then (setAdd acc.1 k, acc.2 + 1) else acc
    | none => acc
  | _ => acc

/-- The `for case in existing_data` loop of `initialize_json_file`. -/
def scanElems (elems : List JVal) : List JVal × Nat := elems.foldl scanStep ([], 0)

/-- `initialize_json_file(range_name)`: create or recover the JSON array file
and install the `active_json_files` entry.  Mirrors `main.py` lines 156-240:
a missing, empty, `[]`, non-`[...]`-shaped or unparseable file starts fresh
with `[\n`; otherwise the content (stripped, trailing `]`s and whitespace
removed) is parsed with a `]` appended, keys of dict elements with truthy
`Case_No` populate `existing_cases`, and the file is rewritten without its
closing bracket (or reset to `[\n` when no countable case was found). -/
def initStore (st : StoreSt) : StoreSt :=
  match st.disk.file with
  | none => ⟨⟨some newArrFile, st.disk.summaryFile⟩, some ⟨0, []⟩⟩
  | some raw =>
    let content := pyStrip raw
    if content = [] ∨ content = ['[', ']'] then
      ⟨⟨some newArrFile, st.disk.summaryFile⟩, some ⟨0, []⟩⟩
    else if content.head? = some '[' ∧ content.getLast? = some ']' then
      let content1 := pyRstrip (pyRstripBr content)
      match jsonLoads (content1 ++ [']']) with
      | some (JVal.jarr elems) =>
        let seen := (scanElems elems).1
        let cnt := (scanElems elems).2
        let newFile := if 0 < cnt then pyRstrip (pyRstripBr content1) else newArrFile
        ⟨⟨some newFile, st.disk.summaryFile⟩, some ⟨cnt, seen⟩⟩
      | _ => ⟨⟨some newArrFile, st.disk.summaryFile⟩, some ⟨0, []⟩⟩
    else
      ⟨⟨some newArrFile, st.disk.summaryFile⟩, some ⟨0, []⟩⟩

/-- `write_case_incrementally(case_data, range_name)`: returns the Python
return value and the new state.  `writeOk = false` models the file append
raising an OS error (permissions, full disk): the exception is swallowed by
the surrounding `except` and the call returns `False` — but `seen_cases` has
already been updated.  Mirrors `main.py` lines 246-283; a non-dict truthy
`case_data` makes `case_data.get` raise `AttributeError`, which the same
`except` turns into `False`.  The duplicate test is total in the model; on
a truthy unhashable key (a list or dict, outside the scraper's string-keyed
record model) the real `in seen_cases` test raises `TypeError`, which the
same `except` also turns into `False`. -/
def commit (r : JVal) (writeOk : Bool) (st : StoreSt) : Bool × StoreSt :=
  if ¬ jtruthy r then (false, st)
  else
    match r with
    | JVal.jobj fs =>
      match objGet fs "Case_No" with
      | none => (false, st)
      | some k =>
        if ¬ jtruthy k then (false, st)
        else if k = jstr "N/A" then (false, st)
        else
          match st.info with
          | none => (false, st)
          | some fi =>
            if k ∈ fi.seenCases then (false, st)
            else
              let seen1 := setAdd fi.seenCases k
              if writeOk then
                let sep : List Char := if 0 < fi.caseCount then [',', '\n'] else []
                let newFile := st.disk.file.getD [] ++ sep ++ jdump 0 (JVal.jobj fs)
                (true, ⟨⟨some newFile, st.disk.summaryFile⟩, some ⟨fi.caseCount + 1, seen1⟩⟩)
              else (false, ⟨st.disk, some ⟨fi.caseCount, seen1⟩⟩)
    | _ => (false, st)

/-- `finalize_json_file(range_name)`: append the closing `\n]`, write the
sidecar summary when `case_count > 0`, drop the `active_json_files` entry and
return `True`; with no active entry return `False` at once.  Mirrors
`main.py` lines 285-326; `now` stands for `time.strftime(...)`. -/
def finalize (now : String) (st : StoreSt) : Bool × StoreSt :=
  match st.info with
  | none => (false, st)
  | some fi =>
    let newFile := st.disk.file.getD [] ++ ['\n', ']']
    let sm := if 0 < fi.caseCount then some ⟨fi.caseCount, now⟩ else st.disk.summaryFile
    (true, ⟨⟨some newFile, sm⟩, none⟩)

/-! ## Traces -/

/-- One event against the store: an `initialize_json_file` call, a commit
(with succeeding or failing file write), a `finalize_json_file` call, or a
process crash/restart (the in-memory entry is lost, the disk survives). -/
inductive Op where
  | opInit : Op
  | opCommit : JVal → Op
  | opCommitFail : JVal → Op
  | opFinalize : String → Op
  | opCrash : Op

/-- State transition of one event. -/
def step (o : Op) (st : StoreSt) : StoreSt :=
  match o with
  | Op.opInit => initStore st
  | Op.opCommit r => (commit r true st).2
  | Op.opCommitFail r => (commit r false st).2
  | Op.opFinalize now => (finalize now st).2
  | Op.opCrash => ⟨st.disk, none⟩

/-- The pristine path: no file, no summary, no in-memory entry. -/
def st0 : StoreSt := ⟨⟨none, none⟩, none⟩

/-- Run a whole trace from the pristine path. -/
def run (ops : List Op) : StoreSt := ops.foldl (fun s o => step o s) st0

/-! ## Round-trip lemmas: characters, digits and numbers -/

theorem charOfNat_toNat {n : Nat} (h : n < 0xd800) : (Char.ofNat n).toNat = n := by
  have hv : n.isValidChar := Or.inl h
  simp only [Char.ofNat, hv, dif_pos, Char.ofNatAux, Char.toNat, UInt32.toNat]
  rfl

theorem char_toNat_inj {c d : Char} (h : c.toNat = d.toNat) : c = d :=
  Char.ext (UInt32.ext h)

theorem digitChar_toNat {n : Nat} (h : n < 10) : (digitChar n).toNat = 48 + n :=
  charOfNat_toNat (by omega)

theorem isDig_digitChar {n : Nat} (h : n < 10) : isDig (digitChar n) = true := by
  simp [isDig, digitChar_toNat h]
  omega

theorem digitChar_ne_zeroChar {n : Nat} (h1 : 0 < n) (h2 : n < 10) : digitChar n ≠ '0' := by
  intro he
  have h3 := digitChar_toNat h2
  rw [he, show ('0' : Char).toNat = 48 from rfl] at h3
  omega

theorem hexVal_hexChar {n : Nat} (h : n < 16) : hexVal (hexChar n) = some n := by
  interval_cases n <;> decide

theorem natToCharsAux_zero (f : Nat) : natToCharsAux f 0 = [] := by
  cases f <;> rfl

theorem natToCharsAux_spec :
    ∀ f n : Nat, 0 < n → n ≤ f →
      ∃ d ds, natToCharsAux f n = d :: ds ∧ isDig d = true ∧ d ≠ '0' ∧
        (∀ c ∈ ds, isDig c = true) ∧
        (d :: ds).foldl (fun a c => 10 * a + (c.toNat - 48)) 0 = n := by
  intro f
  induction f with
  | zero => intro n h1 h2; omega
  | succ f ih =>
    intro n h1 h2
    match n, h1 with
    | m + 1, _ =>
      rw [natToCharsAux]
      by_cases h10 : (m + 1) / 10 = 0
      · have hlt : m + 1 < 10 := by omega
        have hmod : (m + 1) % 10 = m + 1 := Nat.mod_eq_of_lt hlt
        rw [h10, natToCharsAux_zero, hmod]
        refine ⟨digitChar (m + 1), [], by simp, isDig_digitChar hlt,
          digitChar_ne_zeroChar (by omega) hlt, by simp, ?_⟩
        simp only [List.foldl_cons, List.foldl_nil]
        rw [digitChar_toNat hlt]
        omega
      · have hle : (m + 1) / 10 ≤ f := by
          have hdlt : (m + 1) / 10 < m + 1 := Nat.div_lt_self (by omega) (by omega)
          omega
        obtain ⟨d, ds, heq, hd, hdz, hds, hval⟩ := ih ((m + 1) / 10) (by omega) hle
        refine ⟨d, ds ++ [digitChar ((m + 1) % 10)], by rw [heq]; simp, hd, hdz, ?_, ?_⟩
        · intro c hc
          rcases List.mem_append.mp hc with h | h
          · exact hds c h
          · simp at h
            subst h
            exact isDig_digitChar (by omega)
        · rw [show d :: (ds ++ [digitChar ((m + 1) % 10)])
                = (d :: ds) ++ [digitChar ((m + 1) % 10)] by simp]
          rw [List.foldl_append, hval]
          simp [digitChar_toNat (show (m + 1) % 10 < 10 by omega)]
          omega

theorem natToChars_spec (n : Nat) (h : 0 < n) :
    ∃ d ds, natToChars n = d :: ds ∧ isDig d = true ∧ d ≠ '0' ∧
      (∀ c ∈ ds, isDig c = true) ∧
      (d :: ds).foldl (fun a c => 10 * a + (c.toNat - 48)) 0 = n := by
  rw [natToChars, if_neg (by omega)]
  exact natToCharsAux_spec n n h le_rfl

theorem headDigit_false_of_not {rest : List Char}
    (h : ∀ c, rest.head? = some c → isDig c = false) : headDigit rest = false := by
  cases rest with
  | nil => rfl
  | cons c r => exact h c rfl

theorem takeWhile_digits (ds rest : List Char) (hds : ∀ c ∈ ds, isDig c = true)
    (hrest : headDigit rest = false) :
    (ds ++ rest).takeWhile isDig = ds ∧ (ds ++ rest).dropWhile isDig = rest := by
  induction ds with
  | nil =>
    simp only [List.nil_append]
    cases rest with
    | nil => simp
    | cons c r =>
      simp only [headDigit] at hrest
      simp [List.takeWhile, List.dropWhile, hrest]
  | cons d ds ih =>
    have hd : isDig d = true := hds d (by simp)
    obtain ⟨h1, h2⟩ := ih (fun c hc => hds c (by simp [hc]))
    simp [List.takeWhile, List.dropWhile, hd, h1, h2]

theorem parseIntPart_natToChars (n : Nat) (rest : List Char)
    (hrest : headDigit rest = false) :
    parseIntPart (natToChars n ++ rest) = some (n, rest) := by
  by_cases h0 : n = 0
  · subst h0
    rw [natToChars, if_pos rfl]
    simp [parseIntPart, hrest]
  · obtain ⟨d, ds, heq, hd, hdz, hds, hval⟩ := natToChars_spec n (by omega)
    rw [heq]
    simp only [List.cons_append, parseIntPart]
    rw [if_neg hdz, if_pos hd]
    obtain ⟨ht, hdr⟩ := takeWhile_digits ds rest hds hrest
    simp only [ht, hdr, Option.some.injEq, Prod.mk.injEq, and_true]
    simp only [List.foldl_cons] at hval
    rw [show 10 * 0 + (d.toNat - 48) = d.toNat - 48 by omega] at hval
    exact hval

theorem isDig_isNumCont {c : Char} (h : isDig c = true) : isNumCont c = true := by
  simp [isNumCont, h]

theorem headNumCont_headDigit {rest : List Char} (h : headNumCont rest = false) :
    headDigit rest = false := by
  cases rest with
  | nil => rfl
  | cons c r =>
    simp only [headNumCont, isNumCont, Bool.or_eq_false_iff] at h
    simp [headDigit, h.1.1.1]

theorem minus_not_isDig : isDig '-' = false := by decide

theorem parseNum_intToChars (n : Int) (rest : List Char)
    (h : headNumCont rest = false) :
    parseNum (intToChars n ++ rest) = some (jnum n, rest) := by
  have hdg : headDigit rest = false := headNumCont_headDigit h
  by_cases hneg : n < 0
  · rw [intToChars, if_pos hneg]
    simp only [List.cons_append, parseNum, if_pos rfl]
    rw [parseIntPart_natToChars n.natAbs rest hdg]
    have habs : (-(n.natAbs : Int)) = n := by omega
    simp only [h, Bool.false_eq_true, if_false, habs, if_true]
  · rw [intToChars, if_neg hneg]
    have hcast : ((n.toNat : Nat) : Int) = n := by omega
    by_cases h0 : n.toNat = 0
    · have he : natToChars n.toNat = ['0'] := by rw [h0]; rfl
      rw [he]
      simp only [List.cons_append, parseNum]
      rw [if_neg (show ('0' : Char) ≠ '-' by decide)]
      have hip : parseIntPart ('0' :: rest) = some (0, rest) := by
        simp [parseIntPart, hdg]
      have hn0 : n = 0 := by omega
      simp [hip, h, hn0]
    · obtain ⟨d, ds, heq, hd, hdz, hds, hval⟩ := natToChars_spec n.toNat (by omega)
      have hpi := parseIntPart_natToChars n.toNat rest hdg
      rw [heq] at hpi ⊢
      simp only [List.cons_append] at hpi ⊢
      rw [parseNum]
      have hdm : d ≠ '-' := by
        intro he
        rw [he] at hd
        exact absurd hd (by decide)
      rw [if_neg hdm, hpi]
      simp [h, hcast]

/-! ## Whitespace and dump-shape lemmas -/

theorem skipWs_cons_ws {c : Char} (h : isJWs c = true) (cs : List Char) :
    skipWs (c :: cs) = skipWs cs := by
  simp [skipWs, List.dropWhile, h]

theorem skipWs_cons_not {c : Char} (h : isJWs c = false) (cs : List Char) :
    skipWs (c :: cs) = c :: cs := by
  simp [skipWs, List.dropWhile, h]

theorem skipWs_append_ws {pre : List Char} (h : ∀ c ∈ pre, isJWs c = true)
    (cs : List Char) : skipWs (pre ++ cs) = skipWs cs := by
  induction pre with
  | nil => rfl
  | cons p ps ih =>
    simp only [List.cons_append]
    rw [skipWs_cons_ws (h p (by simp))]
    exact ih (fun c hc => h c (by simp [hc]))

theorem indentChars_ws (k : Nat) : ∀ c ∈ indentChars k, isJWs c = true := by
  intro c hc
  rw [indentChars] at hc
  rw [List.eq_of_mem_replicate hc]
  decide

theorem skipWs_indent (k : Nat) (cs : List Char) :
    skipWs (indentChars k ++ cs) = skipWs cs :=
  skipWs_append_ws (indentChars_ws k) cs

theorem ne_of_isDig {c d : Char} (h : isDig c = true) (hd : isDig d = false) : c ≠ d := by
  intro he
  subst he
  rw [h] at hd
  cases hd

theorem isJWs_false_of_isDig {c : Char} (h : isDig c = true) : isJWs c = false := by
  have h1 := ne_of_isDig h (show isDig ' ' = false by decide)
  have h2 := ne_of_isDig h (show isDig '\t' = false by decide)
  have h3 := ne_of_isDig h (show isDig '\n' = false by decide)
  have h4 := ne_of_isDig h (show isDig '\r' = false by decide)
  simp [isJWs, h1, h2, h3, h4]

theorem intToChars_head (n : Int) :
    ∃ c t, intToChars n = c :: t ∧ (c = '-' ∨ isDig c = true) := by
  rw [intToChars]
  by_cases hneg : n < 0
  · rw [if_pos hneg]
    exact ⟨'-', _, rfl, Or.inl rfl⟩
  · rw [if_neg hneg]
    by_cases h0 : n.toNat = 0
    · rw [h0]
      exact ⟨'0', [], rfl, Or.inr (by decide)⟩
    · obtain ⟨d, ds, heq, hd, _, _, _⟩ := natToChars_spec n.toNat (by omega)
      exact ⟨d, ds, heq, Or.inr hd⟩

theorem numHead_not_ws {c : Char} (h : c = '-' ∨ isDig c = true) : isJWs c = false := by
  rcases h with h | h
  · subst h; decide
  · exact isJWs_false_of_isDig h

theorem jdump_head (k : Nat) (v : JVal) :
    ∃ c t, jdump k v = c :: t ∧ isJWs c = false ∧ c ≠ ']' := by
  cases v with
  | jnull => exact ⟨'n', _, rfl, by decide, by decide⟩
  | jbool b => cases b
               · exact ⟨'f', _, rfl, by decide, by decide⟩
               · exact ⟨'t', _, rfl, by decide, by decide⟩
  | jnum n =>
    obtain ⟨c, t, heq, hc⟩ := intToChars_head n
    refine ⟨c, t, by rw [jdump, heq], numHead_not_ws hc, ?_⟩
    rcases hc with hc | hc
    · subst hc; decide
    · exact ne_of_isDig hc (by decide)
  | jstr s => exact ⟨'"', escStr s ++ ['"'], rfl, by decide, by decide⟩
  | jarr xs =>
    cases xs with
    | nil => exact ⟨'[', _, rfl, by decide, by decide⟩
    | cons x xs => exact ⟨'[', _, rfl, by decide, by decide⟩
  | jobj fs =>
    cases fs with
    | nil => exact ⟨'{', _, rfl, by decide, by decide⟩
    | cons f fs => exact ⟨'{', _, rfl, by decide, by decide⟩

theorem skipWs_jdump (k : Nat) (v : JVal) (rest : List Char) :
    skipWs (jdump k v ++ rest) = jdump k v ++ rest := by
  obtain ⟨c, t, heq, hws, _⟩ := jdump_head k v
  rw [heq]
  simp only [List.cons_append]
  exact skipWs_cons_not hws _

theorem stringMk_data (s : String) : String.mk s.data = s := by
  cases s
  rfl

/-! ## String literal round trip -/

theorem parseStrAux_esc (cs rest : List Char) :
    parseStrAux ((cs.map escChar).flatten ++ '"' :: rest) = some (cs, rest) := by
  induction cs with
  | nil => simp [parseStrAux]
  | cons c cs ih =>
    simp only [List.map_cons, List.flatten_cons, List.append_assoc]
    by_cases h1 : c = '"'
    · subst h1; simp [escChar, parseStrAux, parseEsc, ih]
    · by_cases h2 : c = '\\'
      · subst h2; simp [escChar, parseStrAux, parseEsc, ih]
      · by_cases h3 : c = Char.ofNat 8
        · subst h3; simp [escChar, parseStrAux, parseEsc, ih]
        · by_cases h4 : c = Char.ofNat 9
          · subst h4; simp [escChar, parseStrAux, parseEsc, ih]
          · by_cases h5 : c = Char.ofNat 10
            · subst h5; simp [escChar, parseStrAux, parseEsc, ih]
            · by_cases h6 : c = Char.ofNat 12
              · subst h6; simp [escChar, parseStrAux, parseEsc, ih]
              · by_cases h7 : c = Char.ofNat 13
                · subst h7; simp [escChar, parseStrAux, parseEsc, ih]
                · by_cases h8 : c.toNat < 32
                  · rw [show escChar c
                        = ['\\', 'u', '0', '0', hexChar (c.toNat / 16), hexChar (c.toNat % 16)]
                        from by simp [escChar, h1, h2, h3, h4, h5, h6, h7, h8]]
                    have e0 : hexVal '0' = some 0 := by decide
                    have ehi : hexVal (hexChar (c.toNat / 16)) = some (c.toNat / 16) :=
                      hexVal_hexChar (by omega)
                    have elo : hexVal (hexChar (c.toNat % 16)) = some (c.toNat % 16) :=
                      hexVal_hexChar (by omega)
                    have hval : c.toNat / 16 * 16 + c.toNat % 16 = c.toNat := by omega
                    have hns : ¬(55296 ≤ c.toNat ∧ c.toNat ≤ 57343) := by omega
                    simp [parseStrAux, parseEsc, parseHex4, List.append_eq,
                      e0, ehi, elo, hval, hns, ih, Char.ofNat_toNat]
                  · rw [show escChar c = [c] from by
                        simp [escChar, h1, h2, h3, h4, h5, h6, h7, h8]]
                    simp only [List.cons_append, List.nil_append, parseStrAux]
                    rw [if_neg h1, if_neg h2, if_neg (by omega)]
                    simp only [List.nil_append, List.append_eq, ih]

/-! ## Fuel weights: enough fuel for the recursive-descent parser -/

mutual

/-- Fuel needed by `parseVal` on the serialization of `v`. -/
def jweight : JVal → Nat
  | JVal.jnull => 1
  | JVal.jbool _ => 1
  | JVal.jnum _ => 1
  | JVal.jstr _ => 1
  | JVal.jarr [] => 1
  | JVal.jarr (x :: xs) => 1 + max (jweight x) (jweightItems xs)
  | JVal.jobj [] => 1
  | JVal.jobj (f :: fs) => 1 + max (jweightField f) (jweightFields fs)

/-- Fuel needed by `parseItems` on serialized continuation items. -/
def jweightItems : List JVal → Nat
  | [] => 1
  | x :: xs => 1 + max (jweight x) (jweightItems xs)

/-- Fuel needed by `parseField` on one serialized member. -/
def jweightField : String × JVal → Nat
  | (_, v) => 1 + jweight v

/-- Fuel needed by `parseFields` on serialized continuation members. -/
def jweightFields : List (String × JVal) → Nat
  | [] => 1
  | f :: fs => 1 + max (jweightField f) (jweightFields fs)

end

theorem jweight_pos (v : JVal) : 1 ≤ jweight v := by
  cases v with
  | jnull => simp [jweight]
  | jbool b => simp [jweight]
  | jnum n => simp [jweight]
  | jstr s => simp [jweight]
  | jarr xs => cases xs <;> simp [jweight]
  | jobj fs => cases fs <;> simp [jweight]

theorem jweightItems_pos (xs : List JVal) : 1 ≤ jweightItems xs := by
  cases xs <;> simp [jweightItems]

theorem jweightFields_pos (fs : List (String × JVal)) : 1 ≤ jweightFields fs := by
  cases fs <;> simp [jweightFields]

theorem isNumCont_false_of_ws {c : Char} (h : isJWs c = true) : isNumCont c = false := by
  have : c = ' ' ∨ c = '\t' ∨ c = '\n' ∨ c = '\r' := by
    simp only [isJWs, Bool.or_eq_true, decide_eq_true_eq] at h
    tauto
  rcases this with h | h | h | h <;> subst h <;> decide

theorem skipWs_newline_indent (k : Nat) (cs : List Char) :
    skipWs ('\n' :: (indentChars k ++ cs)) = skipWs cs := by
  rw [skipWs_cons_ws (by decide), skipWs_indent]

/-- Head of a serialized items list followed by whitespace and a closing
bracket never continues a number token. -/
theorem headNumCont_items (k : Nat) (xs : List JVal) (pre rest : List Char)
    (hpre : ∀ c ∈ pre, isJWs c = true) :
    headNumCont (jdumpItems k xs ++ (pre ++ ']' :: rest)) = false := by
  cases xs with
  | nil =>
    rw [jdumpItems, List.nil_append]
    cases pre with
    | nil => rfl
    | cons p ps =>
      simp only [List.cons_append, headNumCont]
      exact isNumCont_false_of_ws (hpre p (by simp))
  | cons x xs =>
    rw [jdumpItems]
    simp only [List.cons_append]
    rfl

/-- Same for serialized object members before `}`. -/
theorem headNumCont_fields (k : Nat) (fs : List (String × JVal)) (pre rest : List Char)
    (hpre : ∀ c ∈ pre, isJWs c = true) :
    headNumCont (jdumpFields k fs ++ (pre ++ '}' :: rest)) = false := by
  cases fs with
  | nil =>
    rw [jdumpFields, List.nil_append]
    cases pre with
    | nil => rfl
    | cons p ps =>
      simp only [List.cons_append, headNumCont]
      exact isNumCont_false_of_ws (hpre p (by simp))
  | cons f fs =>
    rw [jdumpFields]
    simp only [List.cons_append]
    rfl

/-! ## One-step unfolding lemmas for the parser -/

theorem parseVal_num (fuel : Nat) (n : Int) (rest : List Char)
    (h : headNumCont rest = false) :
    parseVal (fuel + 1) (intToChars n ++ rest) = some (jnum n, rest) := by
  obtain ⟨c, t, heq, hc⟩ := intToChars_head n
  have hne : c ≠ 'n' ∧ c ≠ 't' ∧ c ≠ 'f' ∧ c ≠ '"' ∧ c ≠ '[' ∧ c ≠ '{' := by
    rcases hc with hc | hc
    · subst hc
      exact ⟨by decide, by decide, by decide, by decide, by decide, by decide⟩
    · exact ⟨ne_of_isDig hc (by decide), ne_of_isDig hc (by decide),
        ne_of_isDig hc (by decide), ne_of_isDig hc (by decide),
        ne_of_isDig hc (by decide), ne_of_isDig hc (by decide)⟩
  obtain ⟨h1, h2, h3, h4, h5, h6⟩ := hne
  rw [heq]
  simp only [List.cons_append, parseVal]
  rw [if_neg h1, if_neg h2, if_neg h3, if_neg h4, if_neg h5, if_neg h6, if_pos hc]
  rw [show c :: (t ++ rest) = intToChars n ++ rest from by rw [heq, List.cons_append]]
  exact parseNum_intToChars n rest h

theorem parseVal_quote (fuel : Nat) (tail : List Char) :
    parseVal (fuel + 1) ('"' :: tail)
      = match parseStrAux tail with
        | some (s, t) => some (jstr (String.mk s), t)
        | none => none := by
  simp only [parseVal]
  rw [if_neg (by decide), if_neg (by decide), if_neg (by decide)]
  simp

theorem parseVal_arr_nil (fuel : Nat) (tail r : List Char)
    (hskip : skipWs tail = ']' :: r) :
    parseVal (fuel + 1) ('[' :: tail) = some (jarr [], r) := by
  simp only [parseVal]
  rw [if_neg (by decide), if_neg (by decide), if_neg (by decide), if_neg (by decide)]
  simp [hskip]

theorem parseVal_arr_cons (fuel : Nat) (tail : List Char) (c1 : Char) (r1 : List Char)
    (hne : c1 ≠ ']') (hskip : skipWs tail = c1 :: r1) :
    parseVal (fuel + 1) ('[' :: tail)
      = match parseVal fuel (c1 :: r1) with
        | some (v, r) =>
          match parseItems fuel r with
          | some (vs, r') => some (jarr (v :: vs), r')
          | none => none
        | none => none := by
  simp only [parseVal]
  rw [if_neg (by decide), if_neg (by decide), if_neg (by decide), if_neg (by decide)]
  simp [hskip, hne]

theorem parseVal_obj_nil (fuel : Nat) (tail r : List Char)
    (hskip : skipWs tail = '}' :: r) :
    parseVal (fuel + 1) ('{' :: tail) = some (jobj [], r) := by
  simp only [parseVal]
  rw [if_neg (by decide), if_neg (by decide), if_neg (by decide), if_neg (by decide),
    if_neg (by decide)]
  simp [hskip]

theorem parseVal_obj_cons (fuel : Nat) (tail : List Char) (c1 : Char) (r1 : List Char)
    (hne : c1 ≠ '}') (hskip : skipWs tail = c1 :: r1) :
    parseVal (fuel + 1) ('{' :: tail)
      = match parseField fuel (c1 :: r1) with
        | some (f, r) =>
          match parseFields fuel r with
          | some (fs, r') => some (jobj (f :: fs), r')
          | none => none
        | none => none := by
  simp only [parseVal]
  rw [if_neg (by decide), if_neg (by decide), if_neg (by decide), if_neg (by decide),
    if_neg (by decide)]
  simp [hskip, hne]

theorem parseItems_close (fuel : Nat) (cs r : List Char)
    (hskip : skipWs cs = ']' :: r) :
    parseItems (fuel + 1) cs = some ([], r) := by
  simp only [parseItems]
  rw [hskip]
  simp

theorem parseItems_cons (fuel : Nat) (cs r : List Char)
    (hskip : skipWs cs = ',' :: r) :
    parseItems (fuel + 1) cs
      = match parseVal fuel (skipWs r) with
        | some (v, r') =>
          match parseItems fuel r' with
          | some (vs, r'') => some (v :: vs, r'')
          | none => none
        | none => none := by
  simp only [parseItems]
  rw [hskip]
  simp

theorem parseField_quote (fuel : Nat) (tail : List Char) :
    parseField (fuel + 1) ('"' :: tail)
      = match parseStrAux tail with
        | some (s, t) =>
          match skipWs t with
          | [] => none
          | c1 :: r =>
            if c1 = ':' then
              match parseVal fuel (skipWs r) with
              | some (v, r') => some ((String.mk s, v), r')
              | none => none
            else none
        | none => none := by
  simp only [parseField]
  simp

theorem parseFields_close (fuel : Nat) (cs r : List Char)
    (hskip : skipWs cs = '}' :: r) :
    parseFields (fuel + 1) cs = some ([], r) := by
  simp only [parseFields]
  rw [hskip]
  simp

theorem parseFields_cons (fuel : Nat) (cs r : List Char)
    (hskip : skipWs cs = ',' :: r) :
    parseFields (fuel + 1) cs
      = match parseField fuel (skipWs r) with
        | some (f, r') =>
          match parseFields fuel r' with
          | some (fs, r'') => some (f :: fs, r'')
          | none => none
        | none => none := by
  simp only [parseFields]
  rw [hskip]
  simp


/-! ## The serializer/parser round trip -/

theorem parse_jdump_all (fuel : Nat) :
    (∀ v k rest, jweight v ≤ fuel → headNumCont rest = false →
      parseVal fuel (jdump k v ++ rest) = some (v, rest)) ∧
    (∀ xs k pre rest, jweightItems xs ≤ fuel → (∀ c ∈ pre, isJWs c = true) →
      parseItems fuel (jdumpItems k xs ++ (pre ++ ']' :: rest)) = some (xs, rest)) ∧
    (∀ key v k rest, 1 + jweight v ≤ fuel → headNumCont rest = false →
      parseField fuel (jdumpField k (key, v) ++ rest) = some ((key, v), rest)) ∧
    (∀ fs k pre rest, jweightFields fs ≤ fuel → (∀ c ∈ pre, isJWs c = true) →
      parseFields fuel (jdumpFields k fs ++ (pre ++ '}' :: rest)) = some (fs, rest)) := by
  induction fuel with
  | zero =>
    refine ⟨fun v k rest hw _ => absurd hw (by have := jweight_pos v; omega),
      fun xs k pre rest hw _ => absurd hw (by have := jweightItems_pos xs; omega),
      fun key v k rest hw _ => absurd hw (by omega),
      fun fs k pre rest hw _ => absurd hw (by have := jweightFields_pos fs; omega)⟩
  | succ fuel ih =>
    obtain ⟨ihv, ihi, ihf, ihfs⟩ := ih
    have hwspre : ∀ k, ∀ c ∈ ('\n' :: indentChars k), isJWs c = true := by
      intro k c hc
      rcases List.mem_cons.mp hc with h | h
      · subst h; decide
      · exact indentChars_ws k c h
    refine ⟨?_, ?_, ?_, ?_⟩
    · intro v k rest hw hn
      cases v with
      | jnull => simp [jdump, parseVal, matchLit]
      | jbool b => cases b <;> simp [jdump, parseVal, matchLit]
      | jnum n =>
        rw [show jdump k (jnum n) = intToChars n from rfl]
        exact parseVal_num fuel n rest hn
      | jstr s =>
        rw [show jdump k (jstr s) ++ rest
            = '"' :: ((s.data.map escChar).flatten ++ '"' :: rest) from by
          simp [jdump, dumpStr, escStr]]
        rw [parseVal_quote, parseStrAux_esc]
      | jarr xs =>
        cases xs with
        | nil =>
          rw [show jdump k (jarr []) ++ rest = '[' :: (']' :: rest) from by simp [jdump]]
          exact parseVal_arr_nil fuel _ rest (skipWs_cons_not (by decide) _)
        | cons x xs =>
          have hw1 : jweight x ≤ fuel ∧ jweightItems xs ≤ fuel := by
            rw [jweight] at hw
            have h1 := Nat.le_max_left (jweight x) (jweightItems xs)
            have h2 := Nat.le_max_right (jweight x) (jweightItems xs)
            omega
          have hnc := headNumCont_items (k + 1) xs ('\n' :: indentChars k) rest (hwspre k)
          obtain ⟨c1, t1, heq1, hws1, hne1⟩ := jdump_head (k + 1) x
          have hx := ihv x (k + 1)
            (jdumpItems (k + 1) xs ++ (('\n' :: indentChars k) ++ ']' :: rest)) hw1.1 hnc
          have hy := ihi xs (k + 1) ('\n' :: indentChars k) rest hw1.2 (hwspre k)
          rw [heq1] at hx
          simp only [List.cons_append, List.append_assoc] at hx hy
          have hskip : skipWs ('\n' :: (indentChars (k + 1) ++ (c1 :: (t1
              ++ (jdumpItems (k + 1) xs ++ ('\n' :: (indentChars k ++ ']' :: rest)))))))
              = c1 :: (t1 ++ (jdumpItems (k + 1) xs
                  ++ ('\n' :: (indentChars k ++ ']' :: rest)))) := by
            rw [skipWs_newline_indent]
            exact skipWs_cons_not hws1 _
          have hgoal : jdump k (jarr (x :: xs)) ++ rest
              = '[' :: ('\n' :: (indentChars (k + 1) ++ (c1 :: (t1
                  ++ (jdumpItems (k + 1) xs
                      ++ ('\n' :: (indentChars k ++ ']' :: rest))))))) := by
            rw [show jdump k (jarr (x :: xs))
                = '[' :: '\n' :: (indentChars (k + 1) ++ jdump (k + 1) x
                    ++ jdumpItems (k + 1) xs ++ '\n' :: (indentChars k ++ [']'])) from rfl]
            rw [heq1]
            simp [List.append_assoc]
          rw [hgoal, parseVal_arr_cons fuel _ c1 _ hne1 hskip, hx]
          simp [hy]
      | jobj fs =>
        cases fs with
        | nil =>
          rw [show jdump k (jobj []) ++ rest = '{' :: ('}' :: rest) from by simp [jdump]]
          exact parseVal_obj_nil fuel _ rest (skipWs_cons_not (by decide) _)
        | cons f fs =>
          obtain ⟨key, v⟩ := f
          have hw1 : 1 + jweight v ≤ fuel ∧ jweightFields fs ≤ fuel := by
            simp only [jweight, jweightField] at hw
            have h1 := Nat.le_max_left (1 + jweight v) (jweightFields fs)
            have h2 := Nat.le_max_right (1 + jweight v) (jweightFields fs)
            omega
          have hnc := headNumCont_fields (k + 1) fs ('\n' :: indentChars k) rest (hwspre k)
          have hx := ihf key v (k + 1)
            (jdumpFields (k + 1) fs ++ (('\n' :: indentChars k) ++ '}' :: rest)) hw1.1 hnc
          have hy := ihfs fs (k + 1) ('\n' :: indentChars k) rest hw1.2 (hwspre k)
          have hfd : jdumpField (k + 1) (key, v)
              = '"' :: (escStr key ++ ('"' :: (':' :: (' ' :: jdump (k + 1) v)))) := by
            simp [jdumpField, dumpStr]
          rw [hfd] at hx
          simp only [List.cons_append, List.append_assoc] at hx hy
          have hskip : skipWs ('\n' :: (indentChars (k + 1) ++ ('"' :: (escStr key
              ++ ('"' :: (':' :: (' ' :: (jdump (k + 1) v
              ++ (jdumpFields (k + 1) fs ++ ('\n' :: (indentChars k ++ '}' :: rest)))))))))))
              = '"' :: (escStr key ++ ('"' :: (':' :: (' ' :: (jdump (k + 1) v
                  ++ (jdumpFields (k + 1) fs
                      ++ ('\n' :: (indentChars k ++ '}' :: rest)))))))) := by
            rw [skipWs_newline_indent]
            exact skipWs_cons_not (by decide) _
          have hgoal : jdump k (jobj ((key, v) :: fs)) ++ rest
              = '{' :: ('\n' :: (indentChars (k + 1) ++ ('"' :: (escStr key
                  ++ ('"' :: (':' :: (' ' :: (jdump (k + 1) v
                  ++ (jdumpFields (k + 1) fs
                      ++ ('\n' :: (indentChars k ++ '}' :: rest))))))))))) := by
            rw [show jdump k (jobj ((key, v) :: fs))
                = '{' :: '\n' :: (indentChars (k + 1) ++ jdumpField (k + 1) (key, v)
                    ++ jdumpFields (k + 1) fs ++ '\n' :: (indentChars k ++ ['}'])) from rfl]
            rw [hfd]
            simp [List.append_assoc]
          rw [hgoal, parseVal_obj_cons fuel _ _ _ (by decide) hskip, hx]
          simp [hy]
    · intro xs k pre rest hw hpre
      cases xs with
      | nil =>
        rw [jdumpItems, List.nil_append]
        exact parseItems_close fuel _ rest
          (by rw [skipWs_append_ws hpre, skipWs_cons_not (by decide)])
      | cons x xs =>
        have hw1 : jweight x ≤ fuel ∧ jweightItems xs ≤ fuel := by
          rw [jweightItems] at hw
          have h1 := Nat.le_max_left (jweight x) (jweightItems xs)
          have h2 := Nat.le_max_right (jweight x) (jweightItems xs)
          omega
        have hnc := headNumCont_items k xs pre rest hpre
        have hx := ihv x k (jdumpItems k xs ++ (pre ++ ']' :: rest)) hw1.1 hnc
        have hy := ihi xs k pre rest hw1.2 hpre
        have hsk : skipWs ('\n' :: (indentChars k ++ (jdump k x
            ++ (jdumpItems k xs ++ (pre ++ ']' :: rest)))))
            = jdump k x ++ (jdumpItems k xs ++ (pre ++ ']' :: rest)) := by
          rw [skipWs_newline_indent, skipWs_jdump]
        have hgoal : jdumpItems k (x :: xs) ++ (pre ++ ']' :: rest)
            = ',' :: ('\n' :: (indentChars k ++ (jdump k x
                ++ (jdumpItems k xs ++ (pre ++ ']' :: rest))))) := by
          rw [jdumpItems]
          simp [List.append_assoc]
        rw [hgoal, parseItems_cons fuel _ _ (skipWs_cons_not (by decide) _), hsk, hx]
        simp [hy]
    · intro key v k rest hw hn
      have hw1 : jweight v ≤ fuel := by omega
      have hx := ihv v k rest hw1 hn
      rw [show jdumpField k (key, v) ++ rest
          = '"' :: ((key.data.map escChar).flatten
              ++ ('"' :: (':' :: (' ' :: (jdump k v ++ rest))))) from by
        simp [jdumpField, dumpStr, escStr]]
      rw [parseField_quote, parseStrAux_esc]
      have hsk1 : skipWs (':' :: (' ' :: (jdump k v ++ rest)))
          = ':' :: (' ' :: (jdump k v ++ rest)) := skipWs_cons_not (by decide) _
      have hsk2 : skipWs (' ' :: (jdump k v ++ rest)) = jdump k v ++ rest := by
        rw [skipWs_cons_ws (by decide), skipWs_jdump]
      simp [hsk1, hsk2, hx, stringMk_data]
    · intro fs k pre rest hw hpre
      cases fs with
      | nil =>
        rw [jdumpFields, List.nil_append]
        exact parseFields_close fuel _ rest
          (by rw [skipWs_append_ws hpre, skipWs_cons_not (by decide)])
      | cons f fs =>
        obtain ⟨key, v⟩ := f
        have hw1 : 1 + jweight v ≤ fuel ∧ jweightFields fs ≤ fuel := by
          simp only [jweightFields, jweightField] at hw
          have h1 := Nat.le_max_left (1 + jweight v) (jweightFields fs)
          have h2 := Nat.le_max_right (1 + jweight v) (jweightFields fs)
          omega
        have hnc := headNumCont_fields k fs pre rest hpre
        have hx := ihf key v k (jdumpFields k fs ++ (pre ++ '}' :: rest)) hw1.1 hnc
        have hy := ihfs fs k pre rest hw1.2 hpre
        have hsk : skipWs ('\n' :: (indentChars k ++ (jdumpField k (key, v)
            ++ (jdumpFields k fs ++ (pre ++ '}' :: rest)))))
            = jdumpField k (key, v) ++ (jdumpFields k fs ++ (pre ++ '}' :: rest)) := by
          rw [skipWs_newline_indent]
          rw [show jdumpField k (key, v)
              = '"' :: (escStr key ++ ('"' :: (':' :: (' ' :: jdump k v)))) from by
            simp [jdumpField, dumpStr]]
          simp only [List.cons_append]
          exact skipWs_cons_not (by decide) _
        have hgoal : jdumpFields k ((key, v) :: fs) ++ (pre ++ '}' :: rest)
            = ',' :: ('\n' :: (indentChars k ++ (jdumpField k (key, v)
                ++ (jdumpFields k fs ++ (pre ++ '}' :: rest))))) := by
          rw [jdumpFields]
          simp [List.append_assoc]
        rw [hgoal, parseFields_cons fuel _ _ (skipWs_cons_not (by decide) _), hsk, hx]
        simp [hy]

/-! ## The store's file rendering -/

/-- The body of the store's array file: the first record serialized by
`json.dump(..., indent=2)` at top level, the rest each preceded by `",\n"` —
exactly what `write_case_incrementally` produces (note that `jdumpItems 0`
is precisely the `",\n" ++ dump` sequence, since the top-level indent is
empty). -/
def jfileBody : List JVal → List Char
  | [] => []
  | r :: rs => jdump 0 r ++ jdumpItems 0 rs

/-- The file content of an open (unterminated) store holding `rs`. -/
def rendered (rs : List JVal) : List Char := '[' :: '\n' :: jfileBody rs

/-- The `Case_No` field of a record, when the record is a dict that has one. -/
def keyOf : JVal → Option JVal
  | JVal.jobj fs => objGet fs "Case_No"
  | _ => none

/-- A record that `write_case_incrementally` accepts: a dict with a truthy,
non-sentinel `Case_No`. -/
def validRec (r : JVal) : Prop :=
  ∃ fs k, r = JVal.jobj fs ∧ objGet fs "Case_No" = some k ∧
    jtruthy k = true ∧ k ≠ jstr "N/A"

/-- The keys of the records of a list (for records that have one). -/
def keysOfL (rs : List JVal) : List JVal := rs.filterMap keyOf

theorem rendered_nil : rendered [] = newArrFile := rfl

theorem jdumpItems_concat (k : Nat) (xs : List JVal) (r : JVal) :
    jdumpItems k (xs ++ [r])
      = jdumpItems k xs ++ (',' :: '\n' :: (indentChars k ++ jdump k r)) := by
  induction xs with
  | nil => simp [jdumpItems]
  | cons x xs ih => simp [jdumpItems, ih]

theorem rendered_concat (rs : List JVal) (r : JVal) :
    rendered (rs ++ [r])
      = rendered rs ++ (if 0 < rs.length then [',', '\n'] else []) ++ jdump 0 r := by
  cases rs with
  | nil => simp [rendered, jfileBody, jdumpItems]
  | cons x xs =>
    simp only [rendered, jfileBody, List.cons_append, jdumpItems_concat]
    simp [indentChars]

theorem jdumpItems_as_body (xs : List JVal) (x : JVal) :
    jdumpItems 0 (x :: xs) = ',' :: '\n' :: jfileBody (x :: xs) := by
  simp [jdumpItems, jfileBody, indentChars]

/-- A serialized object ends with `}`. -/
theorem jdump_obj_last (k : Nat) (fs : List (String × JVal)) :
    ∃ u, jdump k (jobj fs) = u ++ ['}'] := by
  cases fs with
  | nil => exact ⟨['{'], rfl⟩
  | cons f fs =>
    refine ⟨'{' :: '\n' :: (indentChars (k + 1) ++ jdumpField (k + 1) f
      ++ jdumpFields (k + 1) fs ++ '\n' :: indentChars k), ?_⟩
    rw [jdump]
    simp

/-- The body of a nonempty list of object records ends with `}`. -/
theorem jfileBody_last_obj (rs : List JVal)
    (h : ∀ r ∈ rs, ∃ fs, r = JVal.jobj fs) (hne : rs ≠ []) :
    ∃ u, jfileBody rs = u ++ ['}'] := by
  induction rs with
  | nil => exact absurd rfl hne
  | cons x xs ih =>
    obtain ⟨fs, hfs⟩ := h x (by simp)
    cases xs with
    | nil =>
      subst hfs
      obtain ⟨u, hu⟩ := jdump_obj_last 0 fs
      exact ⟨u, by simp [jfileBody, jdumpItems, hu]⟩
    | cons y ys =>
      obtain ⟨u, hu⟩ := ih (fun r hr => h r (by simp [hr])) (by simp)
      refine ⟨jdump 0 x ++ (',' :: '\n' :: u), ?_⟩
      rw [show jfileBody (x :: y :: ys) = jdump 0 x ++ jdumpItems 0 (y :: ys) from rfl]
      rw [jdumpItems_as_body, hu]
      simp

/-! ## Fuel bounds: the input length always provides enough fuel -/

theorem weight_le_length_all (n : Nat) :
    (∀ v : JVal, sizeOf v ≤ n → ∀ k, jweight v ≤ (jdump k v).length) ∧
    (∀ xs : List JVal, sizeOf xs ≤ n → ∀ k,
      jweightItems xs ≤ (jdumpItems k xs).length + 1) ∧
    (∀ f : String × JVal, sizeOf f ≤ n → ∀ k, jweightField f ≤ (jdumpField k f).length) ∧
    (∀ fs : List (String × JVal), sizeOf fs ≤ n → ∀ k,
      jweightFields fs ≤ (jdumpFields k fs).length + 1) := by
  induction n with
  | zero =>
    refine ⟨fun v h => ?_, fun xs h => ?_, fun f h => ?_, fun fs h => ?_⟩
    · cases v <;> simp_arith at h
    · cases xs <;> simp_arith at h
    · obtain ⟨a, b⟩ := f; simp_arith at h
    · cases fs <;> simp_arith at h
  | succ n ih =>
    obtain ⟨ihv, ihi, ihf, ihfs⟩ := ih
    refine ⟨fun v h k => ?_, fun xs h k => ?_, fun f h k => ?_, fun fs h k => ?_⟩
    · cases v with
      | jnull => simp [jweight, jdump]
      | jbool b => cases b <;> simp [jweight, jdump]
      | jnum m =>
        obtain ⟨c, t, heq, _⟩ := intToChars_head m
        simp [jweight, jdump, heq]
      | jstr s => simp [jweight, jdump, dumpStr]
      | jarr xs =>
        cases xs with
        | nil => simp [jweight, jdump]
        | cons x xs =>
          simp_arith at h
          have h1 := ihv x (by omega) (k + 1)
          have h2 := ihi xs (by omega) (k + 1)
          have hm1 := Nat.le_max_left (jweight x) (jweightItems xs)
          have hm2 := Nat.le_max_right (jweight x) (jweightItems xs)
          have hmx : max (jweight x) (jweightItems xs)
              ≤ (jdump (k + 1) x).length + (jdumpItems (k + 1) xs).length + 1 := by omega
          rw [jweight, jdump]
          simp [List.length_append, indentChars]
          omega
      | jobj fs =>
        cases fs with
        | nil => simp [jweight, jdump]
        | cons f fs =>
          obtain ⟨key, v⟩ := f
          simp_arith at h
          have h1 := ihf (key, v) (by simp_arith; omega) (k + 1)
          have h2 := ihfs fs (by omega) (k + 1)
          have hm1 := Nat.le_max_left (jweightField (key, v)) (jweightFields fs)
          have hm2 := Nat.le_max_right (jweightField (key, v)) (jweightFields fs)
          rw [jweight, jdump]
          simp [List.length_append, indentChars]
          omega
    · cases xs with
      | nil => simp [jweightItems, jdumpItems]
      | cons x xs =>
        simp_arith at h
        have h1 := ihv x (by omega) k
        have h2 := ihi xs (by omega) k
        have hm1 := Nat.le_max_left (jweight x) (jweightItems xs)
        have hm2 := Nat.le_max_right (jweight x) (jweightItems xs)
        rw [jweightItems, jdumpItems]
        simp [List.length_append, indentChars]
        omega
    · obtain ⟨key, v⟩ := f
      simp_arith at h
      have h1 := ihv v (by omega) k
      rw [jweightField, jdumpField]
      simp [List.length_append, dumpStr]
      omega
    · cases fs with
      | nil => simp [jweightFields, jdumpFields]
      | cons f fs =>
        obtain ⟨key, v⟩ := f
        simp_arith at h
        have h1 := ihf (key, v) (by simp_arith; omega) k
        have h2 := ihfs fs (by omega) k
        have hm1 := Nat.le_max_left (jweightField (key, v)) (jweightFields fs)
        have hm2 := Nat.le_max_right (jweightField (key, v)) (jweightFields fs)
        rw [jweightFields, jdumpFields]
        simp [List.length_append, indentChars]
        omega

theorem jweight_le_length (v : JVal) (k : Nat) : jweight v ≤ (jdump k v).length :=
  (weight_le_length_all (sizeOf v)).1 v le_rfl k

theorem jweightItems_le_length (xs : List JVal) (k : Nat) :
    jweightItems xs ≤ (jdumpItems k xs).length + 1 :=
  (weight_le_length_all (sizeOf xs)).2.1 xs le_rfl k

theorem jweightItems_le_rendered (rs : List JVal) :
    jweightItems rs ≤ (rendered rs).length := by
  cases rs with
  | nil => simp [jweightItems, rendered, jfileBody]
  | cons x xs =>
    have h1 := jweight_le_length x 0
    have h2 := jweightItems_le_length xs 0
    have hm1 := Nat.le_max_left (jweight x) (jweightItems xs)
    have hm2 := Nat.le_max_right (jweight x) (jweightItems xs)
    rw [jweightItems]
    simp [rendered, jfileBody, List.length_append]
    omega

/-! ## Parsing the store's file -/

theorem parseVal_arr_empty (fuel : Nat) (tail : List Char) (hskip : skipWs tail = []) :
    parseVal (fuel + 1) ('[' :: tail) = none := by
  simp only [parseVal]
  rw [if_neg (by decide), if_neg (by decide), if_neg (by decide), if_neg (by decide)]
  simp [hskip]

theorem parseVal_rendered (fuel : Nat) (rs : List JVal) (pre rest : List Char)
    (hpre : ∀ c ∈ pre, isJWs c = true)
    (hw : jweightItems rs ≤ fuel + 1) :
    parseVal (fuel + 1) (rendered rs ++ (pre ++ ']' :: rest)) = some (jarr rs, rest) := by
  cases rs with
  | nil =>
    rw [show rendered [] ++ (pre ++ ']' :: rest)
        = '[' :: ('\n' :: (pre ++ ']' :: rest)) from by simp [rendered, jfileBody]]
    refine parseVal_arr_nil fuel _ rest ?_
    rw [skipWs_cons_ws (by decide), skipWs_append_ws hpre, skipWs_cons_not (by decide)]
  | cons x xs =>
    have hw1 : jweight x ≤ fuel ∧ jweightItems xs ≤ fuel := by
      rw [jweightItems] at hw
      have h1 := Nat.le_max_left (jweight x) (jweightItems xs)
      have h2 := Nat.le_max_right (jweight x) (jweightItems xs)
      omega
    have hnc : headNumCont (jdumpItems 0 xs ++ (pre ++ ']' :: rest)) = false :=
      headNumCont_items 0 xs pre rest hpre
    obtain ⟨c1, t1, heq1, hws1, hne1⟩ := jdump_head 0 x
    have hx := (parse_jdump_all fuel).1 x 0 (jdumpItems 0 xs ++ (pre ++ ']' :: rest)) hw1.1 hnc
    have hy := (parse_jdump_all fuel).2.1 xs 0 pre rest hw1.2 hpre
    rw [heq1] at hx
    simp only [List.cons_append, List.append_assoc] at hx hy
    have hskip : skipWs ('\n' :: (c1 :: (t1 ++ (jdumpItems 0 xs ++ (pre ++ ']' :: rest)))))
        = c1 :: (t1 ++ (jdumpItems 0 xs ++ (pre ++ ']' :: rest))) := by
      rw [skipWs_cons_ws (by decide)]
      exact skipWs_cons_not hws1 _
    have hgoal : rendered (x :: xs) ++ (pre ++ ']' :: rest)
        = '[' :: ('\n' :: (c1 :: (t1 ++ (jdumpItems 0 xs ++ (pre ++ ']' :: rest))))) := by
      rw [show rendered (x :: xs)
          = '[' :: '\n' :: (jdump 0 x ++ jdumpItems 0 xs) from rfl, heq1]
      simp
    rw [hgoal, parseVal_arr_cons fuel _ c1 _ hne1 hskip, hx]
    simp [hy]

theorem parseItems_noclose (fuel k : Nat) (xs : List JVal)
    (hw : jweightItems xs ≤ fuel) : parseItems fuel (jdumpItems k xs) = none := by
  induction xs generalizing fuel with
  | nil =>
    cases fuel with
    | zero => rfl
    | succ f => simp [jdumpItems, parseItems, skipWs]
  | cons x xs ih =>
    cases fuel with
    | zero => rfl
    | succ f =>
      have hw1 : jweight x ≤ f ∧ jweightItems xs ≤ f := by
        rw [jweightItems] at hw
        have h1 := Nat.le_max_left (jweight x) (jweightItems xs)
        have h2 := Nat.le_max_right (jweight x) (jweightItems xs)
        omega
      have hnc : headNumCont (jdumpItems k xs) = false := by
        cases xs with
        | nil => rfl
        | cons y ys => rw [jdumpItems]; rfl
      have hx := (parse_jdump_all f).1 x k (jdumpItems k xs) hw1.1 hnc
      have hgoal : jdumpItems k (x :: xs)
          = ',' :: ('\n' :: (indentChars k ++ (jdump k x ++ jdumpItems k xs))) := by
        rw [jdumpItems]
        simp
      rw [hgoal, parseItems_cons f _ _ (skipWs_cons_not (by decide) _)]
      rw [skipWs_newline_indent, skipWs_jdump, hx]
      simp [ih f hw1.2]

theorem parseVal_rendered_noclose (fuel : Nat) (rs : List JVal)
    (hw : jweightItems rs ≤ fuel + 1) :
    parseVal (fuel + 1) (rendered rs) = none := by
  cases rs with
  | nil =>
    rw [show rendered [] = '[' :: ['\n'] from rfl]
    exact parseVal_arr_empty fuel _ (by decide)
  | cons x xs =>
    have hw1 : jweight x ≤ fuel ∧ jweightItems xs ≤ fuel := by
      rw [jweightItems] at hw
      have h1 := Nat.le_max_left (jweight x) (jweightItems xs)
      have h2 := Nat.le_max_right (jweight x) (jweightItems xs)
      omega
    have hnc : headNumCont (jdumpItems 0 xs) = false := by
      cases xs with
      | nil => rfl
      | cons y ys => rw [jdumpItems]; rfl
    obtain ⟨c1, t1, heq1, hws1, hne1⟩ := jdump_head 0 x
    have hx := (parse_jdump_all fuel).1 x 0 (jdumpItems 0 xs) hw1.1 hnc
    rw [heq1] at hx
    simp only [List.cons_append, List.append_assoc] at hx
    have hskip : skipWs ('\n' :: (c1 :: (t1 ++ jdumpItems 0 xs)))
        = c1 :: (t1 ++ jdumpItems 0 xs) := by
      rw [skipWs_cons_ws (by decide)]
      exact skipWs_cons_not hws1 _
    have hgoal : rendered (x :: xs) = '[' :: ('\n' :: (c1 :: (t1 ++ jdumpItems 0 xs))) := by
      rw [show rendered (x :: xs)
          = '[' :: '\n' :: (jdump 0 x ++ jdumpItems 0 xs) from rfl, heq1]
      simp
    rw [hgoal, parseVal_arr_cons fuel _ c1 _ hne1 hskip, hx]
    simp [parseItems_noclose fuel 0 xs hw1.2]

theorem jsonLoads_rendered (rs : List JVal) (pre rest : List Char)
    (hpre : ∀ c ∈ pre, isJWs c = true) :
    jsonLoads (rendered rs ++ (pre ++ ']' :: rest))
      = if skipWs rest = [] then some (jarr rs) else none := by
  have hsk : skipWs (rendered rs ++ (pre ++ ']' :: rest))
      = rendered rs ++ (pre ++ ']' :: rest) := by
    rw [show rendered rs = '[' :: ('\n' :: jfileBody rs) from rfl]
    simp only [List.cons_append]
    exact skipWs_cons_not (by decide) _
  have hlen : jweightItems rs ≤ (rendered rs ++ (pre ++ ']' :: rest)).length + 1 := by
    have h1 := jweightItems_le_rendered rs
    have h2 : (rendered rs).length ≤ (rendered rs ++ (pre ++ ']' :: rest)).length := by
      simp
    omega
  rw [jsonLoads, hsk, parseVal_rendered _ rs pre rest hpre hlen]

theorem jsonLoads_rendered_open (rs : List JVal) : jsonLoads (rendered rs) = none := by
  have hsk : skipWs (rendered rs) = rendered rs := by
    rw [show rendered rs = '[' :: ('\n' :: jfileBody rs) from rfl]
    exact skipWs_cons_not (by decide) _
  have hlen : jweightItems rs ≤ (rendered rs).length + 1 := by
    have := jweightItems_le_rendered rs
    omega
  rw [jsonLoads, hsk, parseVal_rendered_noclose _ rs hlen]

/-! ## Python string-surgery lemmas -/

theorem dropWhile_head_false {p : Char → Bool} {c : Char} {cs : List Char}
    (h : p c = false) : (c :: cs).dropWhile p = c :: cs := by
  simp [List.dropWhile, h]

theorem pyStrip_ends (c d : Char) (mid : List Char)
    (hc : pyIsSpace c = false) (hd : pyIsSpace d = false) :
    pyStrip (c :: (mid ++ [d])) = c :: (mid ++ [d]) := by
  rw [pyStrip, dropWhile_head_false hc]
  rw [show (c :: (mid ++ [d])).reverse = d :: (mid.reverse ++ [c]) from by simp]
  rw [dropWhile_head_false hd]
  simp

theorem pyRstrip_ends (u : List Char) (d : Char) (hd : pyIsSpace d = false) :
    pyRstrip (u ++ [d]) = u ++ [d] := by
  rw [pyRstrip, show (u ++ [d]).reverse = d :: u.reverse from by simp]
  rw [dropWhile_head_false hd]
  simp

theorem pyRstrip_concat_nl (u : List Char) (d : Char) (hd : pyIsSpace d = false) :
    pyRstrip ((u ++ [d]) ++ ['\n']) = u ++ [d] := by
  rw [pyRstrip, show ((u ++ [d]) ++ ['\n']).reverse = '\n' :: (d :: u.reverse) from by simp]
  rw [show List.dropWhile pyIsSpace ('\n' :: (d :: u.reverse))
      = List.dropWhile pyIsSpace (d :: u.reverse) from by
    simp [List.dropWhile, show pyIsSpace '\n' = true from by decide]]
  rw [dropWhile_head_false hd]
  simp

theorem pyRstripBr_ends (u : List Char) (d : Char) (hd : (d == ']') = false) :
    pyRstripBr (u ++ [d]) = u ++ [d] := by
  rw [pyRstripBr, show (u ++ [d]).reverse = d :: u.reverse from by simp]
  rw [@dropWhile_head_false (fun c => c == ']') d u.reverse hd]
  simp

theorem pyRstripBr_concat_br (u : List Char) (d : Char) (hd : (d == ']') = false) :
    pyRstripBr ((u ++ [d]) ++ [']']) = u ++ [d] := by
  rw [pyRstripBr, show ((u ++ [d]) ++ [']']).reverse = ']' :: (d :: u.reverse) from by simp]
  rw [show List.dropWhile (fun c => c == ']') (']' :: (d :: u.reverse))
      = List.dropWhile (fun c => c == ']') (d :: u.reverse) from by
    simp [List.dropWhile]]
  rw [@dropWhile_head_false (fun c => c == ']') d u.reverse hd]
  simp

theorem getLast?_snoc (u : List Char) (d : Char) : (u ++ [d]).getLast? = some d := by
  simp

/-! ## The recovery scan of `initialize_json_file` -/

theorem setAdd_mem (l : List JVal) (k x : JVal) :
    x ∈ setAdd l k ↔ x ∈ l ∨ x = k := by
  rw [setAdd]
  by_cases h : k ∈ l
  · rw [if_pos h]
    constructor
    · exact fun hx => Or.inl hx
    · rintro (hx | rfl)
      · exact hx
      · exact h
  · rw [if_neg h]
    simp

theorem keyOf_of_validRec {r : JVal} (h : validRec r) :
    ∃ k, keyOf r = some k ∧ jtruthy k = true ∧ k ≠ jstr "N/A" := by
  obtain ⟨fs, k, rfl, hget, ht, hs⟩ := h
  exact ⟨k, by simp [keyOf, hget], ht, hs⟩

theorem scanElems_go (rs : List JVal) (acc : List JVal × Nat)
    (h : ∀ r ∈ rs, validRec r) :
    (rs.foldl scanStep acc).2 = acc.2 + rs.length ∧
    (∀ x, x ∈ (rs.foldl scanStep acc).1 ↔ x ∈ acc.1 ∨ x ∈ keysOfL rs) := by
  induction rs generalizing acc with
  | nil => simp [keysOfL]
  | cons r rs ih =>
    obtain ⟨fs, k, rfl, hget, ht, hs⟩ := h r (by simp)
    have hstep : scanStep acc (JVal.jobj fs) = (setAdd acc.1 k, acc.2 + 1) := by
      simp [scanStep, hget, ht]
    have hkeys : keysOfL (JVal.jobj fs :: rs) = k :: keysOfL rs := by
      simp [keysOfL, List.filterMap_cons, keyOf, hget]
    obtain ⟨ih1, ih2⟩ := ih (setAdd acc.1 k, acc.2 + 1) (fun r hr => h r (by simp [hr]))
    rw [List.foldl_cons, hstep]
    constructor
    · rw [ih1]
      simp
      omega
    · intro x
      rw [ih2 x, setAdd_mem, hkeys]
      simp
      tauto

theorem scanElems_count (rs : List JVal) (h : ∀ r ∈ rs, validRec r) :
    (scanElems rs).2 = rs.length :=
  by simpa using (scanElems_go rs ([], 0) h).1

theorem scanElems_mem (rs : List JVal) (h : ∀ r ∈ rs, validRec r) (x : JVal) :
    x ∈ (scanElems rs).1 ↔ x ∈ keysOfL rs := by
  have := (scanElems_go rs ([], 0) h).2 x
  simpa [scanElems] using this

/-! ## What `initialize_json_file` does on each file shape -/

theorem initStore_none (sm : Option Summary) (info : Option FileInfo) :
    initStore ⟨⟨none, sm⟩, info⟩ = ⟨⟨some newArrFile, sm⟩, some ⟨0, []⟩⟩ := rfl

/-- Reopening an *unterminated* (crashed, still-open) file of object records
discards everything and starts fresh: the content does not end in `]`, so the
code takes the "not proper JSON array, starting fresh" branch. -/
theorem initStore_open (rs : List JVal) (sm : Option Summary) (info : Option FileInfo)
    (hobj : ∀ r ∈ rs, ∃ fs, r = JVal.jobj fs) :
    initStore ⟨⟨some (rendered rs), sm⟩, info⟩
      = ⟨⟨some newArrFile, sm⟩, some ⟨0, []⟩⟩ := by
  cases rs with
  | nil =>
    have h1 : pyStrip ['[', '\n'] = ['['] := by decide
    simp [initStore, rendered, jfileBody, h1]
  | cons x xs =>
    obtain ⟨u, hu⟩ := jfileBody_last_obj (x :: xs) hobj (by simp)
    have hshape : rendered (x :: xs) = ('[' :: '\n' :: u) ++ ['}'] := by
      rw [rendered, hu]
      simp
    have hstrip : pyStrip (rendered (x :: xs)) = rendered (x :: xs) := by
      rw [show rendered (x :: xs) = '[' :: (('\n' :: u) ++ ['}']) from by rw [hshape]; simp]
      exact pyStrip_ends '[' '}' ('\n' :: u) (by decide) (by decide)
    have hlast : (rendered (x :: xs)).getLast? = some '}' := by
      rw [hshape]
      exact getLast?_snoc _ _
    have hcond1 : ¬(rendered (x :: xs) = [] ∨ rendered (x :: xs) = ['[', ']']) := by
      rw [rendered]
      simp
    have hcond2 : ¬((rendered (x :: xs)).head? = some '['
        ∧ (rendered (x :: xs)).getLast? = some ']') := by
      rw [hlast]
      simp
    simp only [initStore, hstrip]
    rw [if_neg hcond1, if_neg hcond2]

/-- Reopening a *finalized* file of accepted records re-parses it, recovers
`seen_cases` and `case_count`, and strips the closing bracket: the store
re-enters the open state with the records preserved. -/
theorem initStore_closed (rs : List JVal) (sm : Option Summary) (info : Option FileInfo)
    (hval : ∀ r ∈ rs, validRec r) :
    initStore ⟨⟨some (rendered rs ++ ['\n', ']']), sm⟩, info⟩
      = ⟨⟨some (rendered rs), sm⟩, some ⟨rs.length, (scanElems rs).1⟩⟩ := by
  have hload : jsonLoads (rendered rs ++ [']']) = some (jarr rs) := by
    have h := jsonLoads_rendered rs [] [] (by simp)
    simpa using h
  cases rs with
  | nil =>
    have e1 : pyStrip ['[', '\n', '\n', ']'] = ['[', '\n', '\n', ']'] := by decide
    have e2 : pyRstrip (pyRstripBr ['[', '\n', '\n', ']']) = ['['] := by decide
    have e3 : jsonLoads ['[', ']'] = some (jarr []) := by decide
    have e4 : rendered [] ++ ['\n', ']'] = ['[', '\n', '\n', ']'] := by decide
    rw [e4]
    simp [initStore, e1, e2, e3, scanElems, rendered, jfileBody, newArrFile]
  | cons x xs =>
    have hobj : ∀ r ∈ x :: xs, ∃ fs, r = JVal.jobj fs := by
      intro r hr
      obtain ⟨fs, k, heq, _⟩ := hval r hr
      exact ⟨fs, heq⟩
    obtain ⟨u, hu⟩ := jfileBody_last_obj (x :: xs) hobj (by simp)
    have hshape : rendered (x :: xs) = ('[' :: '\n' :: u) ++ ['}'] := by
      rw [rendered, hu]
      simp
    have hraw : rendered (x :: xs) ++ ['\n', ']']
        = '[' :: ((('\n' :: u) ++ ['}', '\n']) ++ [']']) := by
      rw [hshape]
      simp
    have hstrip : pyStrip (rendered (x :: xs) ++ ['\n', ']'])
        = rendered (x :: xs) ++ ['\n', ']'] := by
      rw [hraw,
        show (('\n' :: u) ++ ['}', '\n']) ++ [']'] = (('\n' :: u) ++ ['}', '\n']) ++ [']']
          from rfl]
      exact pyStrip_ends '[' ']' (('\n' :: u) ++ ['}', '\n']) (by decide) (by decide)
    have hbr : pyRstripBr (rendered (x :: xs) ++ ['\n', ']'])
        = rendered (x :: xs) ++ ['\n'] := by
      rw [show rendered (x :: xs) ++ ['\n', ']'] = (rendered (x :: xs) ++ ['\n']) ++ [']']
        from by simp]
      exact pyRstripBr_concat_br _ '\n' (by decide)
    have hrs : pyRstrip (rendered (x :: xs) ++ ['\n']) = rendered (x :: xs) := by
      rw [show rendered (x :: xs) ++ ['\n'] = (('[' :: '\n' :: u) ++ ['}']) ++ ['\n']
        from by rw [hshape]]
      rw [pyRstrip_concat_nl _ '}' (by decide), ← hshape]
    have hbr2 : pyRstripBr (rendered (x :: xs)) = rendered (x :: xs) := by
      rw [hshape]
      exact pyRstripBr_ends _ '}' (by decide)
    have hrs2 : pyRstrip (rendered (x :: xs)) = rendered (x :: xs) := by
      rw [hshape]
      exact pyRstrip_ends _ '}' (by decide)
    have hcond1 : ¬(rendered (x :: xs) ++ ['\n', ']'] = []
        ∨ rendered (x :: xs) ++ ['\n', ']'] = ['[', ']']) := by
      rw [rendered]
      simp
    have hcond2 : (rendered (x :: xs) ++ ['\n', ']']).head? = some '['
        ∧ (rendered (x :: xs) ++ ['\n', ']']).getLast? = some ']' := by
      constructor
      · rw [rendered]
        simp
      · rw [show rendered (x :: xs) ++ ['\n', ']'] = (rendered (x :: xs) ++ ['\n']) ++ [']']
          from by simp]
        exact getLast?_snoc _ _
    have hcnt : (scanElems (x :: xs)).2 = (x :: xs).length := scanElems_count _ hval
    simp only [initStore, hstrip]
    rw [if_neg hcond1, if_pos hcond2, hbr, hrs, hload]
    simp only [hcnt]
    rw [if_pos (by simp)]
    rw [hbr2, hrs2]

/-! ## Case analysis of `write_case_incrementally` and `finalize_json_file` -/

theorem objGet_ne_nil {fs : List (String × JVal)} {k : String} {v : JVal}
    (h : objGet fs k = some v) : fs ≠ [] := by
  intro he
  subst he
  simp [objGet] at h

theorem jtruthy_of_objGet {fs : List (String × JVal)} {k : String} {v : JVal}
    (h : objGet fs k = some v) : jtruthy (JVal.jobj fs) = true := by
  have := objGet_ne_nil h
  cases fs with
  | nil => exact absurd rfl this
  | cons f fs => simp [jtruthy]

/-- Every rejection path of `write_case_incrementally` returns `False` and
leaves the state untouched: falsy record, missing key, falsy or sentinel key,
store not open, or duplicate key. -/
theorem commit_noop (r : JVal) (b : Bool) (st : StoreSt)
    (h : jtruthy r = false ∨ keyOf r = none ∨
      (∃ k, keyOf r = some k ∧ (jtruthy k = false ∨ k = jstr "N/A")) ∨
      st.info = none ∨
      (∃ fi k, st.info = some fi ∧ keyOf r = some k ∧ k ∈ fi.seenCases)) :
    commit r b st = (false, st) := by
  rcases h with h | h | ⟨k, hk, hbad⟩ | h | ⟨fi, k, hfi, hk, hmem⟩
  · simp [commit, h]
  · cases r with
    | jobj fs =>
      simp only [keyOf] at h
      by_cases ht : jtruthy (JVal.jobj fs) <;> simp [commit, h, ht]
    | jnull => simp [commit, jtruthy]
    | jbool bb => by_cases hb : bb = true <;> simp_all [commit, jtruthy]
    | jnum n => by_cases hn : jtruthy (jnum n) <;> simp [commit, hn]
    | jstr s => by_cases hn : jtruthy (jstr s) <;> simp [commit, hn]
    | jarr xs => by_cases hn : jtruthy (jarr xs) <;> simp [commit, hn]
  · cases r with
    | jobj fs =>
      simp only [keyOf] at hk
      rcases hbad with hb | hb
      · by_cases ht : jtruthy (JVal.jobj fs) <;> simp [commit, hk, ht, hb]
      · subst hb
        by_cases ht : jtruthy (JVal.jobj fs) <;>
          by_cases ht2 : jtruthy (jstr "N/A") = true <;> simp [commit, hk, ht, ht2]
    | jnull => simp [keyOf] at hk
    | jbool bb => simp [keyOf] at hk
    | jnum n => simp [keyOf] at hk
    | jstr s => simp [keyOf] at hk
    | jarr xs => simp [keyOf] at hk
  · cases r with
    | jobj fs =>
      by_cases ht : jtruthy (JVal.jobj fs)
      · cases hg : objGet fs "Case_No" with
        | none => simp [commit, ht, hg]
        | some k =>
          by_cases ht2 : jtruthy k = true <;>
            by_cases hs : k = jstr "N/A" <;> simp [commit, ht, hg, ht2, hs, h]
      · simp [commit, ht]
    | jnull => simp [commit, jtruthy]
    | jbool bb => by_cases hb : bb = true <;> simp_all [commit, jtruthy]
    | jnum n => by_cases hn : jtruthy (jnum n) <;> simp [commit, hn]
    | jstr s => by_cases hn : jtruthy (jstr s) <;> simp [commit, hn]
    | jarr xs => by_cases hn : jtruthy (jarr xs) <;> simp [commit, hn]
  · cases r with
    | jobj fs =>
      simp only [keyOf] at hk
      by_cases ht : jtruthy (JVal.jobj fs)
      · by_cases ht2 : jtruthy k = true <;>
          by_cases hs : k = jstr "N/A" <;> simp [commit, ht, hk, ht2, hs, hfi, hmem]
      · simp [commit, ht]
    | jnull => simp [keyOf] at hk
    | jbool bb => simp [keyOf] at hk
    | jnum n => simp [keyOf] at hk
    | jstr s => simp [keyOf] at hk
    | jarr xs => simp [keyOf] at hk

/-- The accepting path of `write_case_incrementally`: the record is appended
(with a comma separator when the file already holds records), the key enters
`seen_cases`, the counter is bumped, and the call returns `True`. -/
theorem commit_success (fs : List (String × JVal)) (k : JVal) (fi : FileInfo)
    (st : StoreSt) (hget : objGet fs "Case_No" = some k) (ht : jtruthy k = true)
    (hs : k ≠ jstr "N/A") (hfi : st.info = some fi) (hmem : k ∉ fi.seenCases) :
    commit (JVal.jobj fs) true st
      = (true, ⟨⟨some (st.disk.file.getD []
            ++ ((if 0 < fi.caseCount then [',', '\n'] else [])
                ++ jdump 0 (JVal.jobj fs))),
          st.disk.summaryFile⟩, some ⟨fi.caseCount + 1, setAdd fi.seenCases k⟩⟩) := by
  have htr := jtruthy_of_objGet hget
  simp [commit, htr, hget, ht, hs, hfi, hmem, setAdd]

/-- The failing-write path of `write_case_incrementally`: the exception is
swallowed, `False` is returned, the disk is untouched — but the key has
already been added to `seen_cases`. -/
theorem commit_failwrite (fs : List (String × JVal)) (k : JVal) (fi : FileInfo)
    (st : StoreSt) (hget : objGet fs "Case_No" = some k) (ht : jtruthy k = true)
    (hs : k ≠ jstr "N/A") (hfi : st.info = some fi) (hmem : k ∉ fi.seenCases) :
    commit (JVal.jobj fs) false st
      = (false, ⟨st.disk, some ⟨fi.caseCount, setAdd fi.seenCases k⟩⟩) := by
  have htr := jtruthy_of_objGet hget
  simp [commit, htr, hget, ht, hs, hfi, hmem, setAdd]

theorem finalize_noop (now : String) (st : StoreSt) (h : st.info = none) :
    finalize now st = (false, st) := by
  simp [finalize, h]

theorem finalize_some (now : String) (st : StoreSt) (fi : FileInfo)
    (h : st.info = some fi) :
    finalize now st
      = (true, ⟨⟨some (st.disk.file.getD [] ++ ['\n', ']']),
          if 0 < fi.caseCount then some ⟨fi.caseCount, now⟩
          else st.disk.summaryFile⟩, none⟩) := by
  simp [finalize, h]

/-! ## The reachability invariant -/

/-- Invariant of every state reachable from a pristine path: the file is
absent, or holds the rendering of a list of accepted records (open, or closed
with the final `\n]`); keys on disk are pairwise distinct; and the in-memory
entry, when present, exists only with an open file, counts exactly the records
on disk, and its `seen_cases` contains every key on disk (it may contain more:
keys whose write failed). -/
def GoodSt (st : StoreSt) : Prop :=
  ∃ rs : List JVal,
    (∀ r ∈ rs, validRec r) ∧ (keysOfL rs).Nodup ∧
    ((st.disk.file = none ∧ rs = [] ∧ st.info = none) ∨
     (st.disk.file = some (rendered rs) ∧
       ∀ fi, st.info = some fi → fi.caseCount = rs.length ∧
         ∀ k ∈ keysOfL rs, k ∈ fi.seenCases) ∨
     (st.disk.file = some (rendered rs ++ ['\n', ']']) ∧ st.info = none))

theorem GoodSt_st0 : GoodSt st0 :=
  ⟨[], by simp, by simp [keysOfL], Or.inl ⟨rfl, rfl, rfl⟩⟩

theorem keysOfL_concat_of_key (rs : List JVal) (r : JVal) (k : JVal)
    (hk : keyOf r = some k) : keysOfL (rs ++ [r]) = keysOfL rs ++ [k] := by
  simp [keysOfL, List.filterMap_append, hk]

theorem GoodSt_initStore {st : StoreSt} (h : GoodSt st) : GoodSt (initStore st) := by
  obtain ⟨rs, hval, hnd, hcase⟩ := h
  obtain ⟨⟨f, sm⟩, info⟩ := st
  rcases hcase with ⟨hf, hrs, hi⟩ | ⟨hf, hi⟩ | ⟨hf, hi⟩
  · simp only at hf
    subst hf
    rw [initStore_none]
    exact ⟨[], by simp, by simp [keysOfL],
      Or.inr (Or.inl ⟨rfl, by rintro fi ⟨rfl⟩; simp [keysOfL]⟩)⟩
  · simp only at hf
    subst hf
    rw [initStore_open rs sm info
      (fun r hr => (hval r hr).elim fun fs h => ⟨fs, h.choose_spec.1⟩)]
    exact ⟨[], by simp, by simp [keysOfL],
      Or.inr (Or.inl ⟨rfl, by rintro fi ⟨rfl⟩; simp [keysOfL]⟩)⟩
  · simp only at hf
    subst hf
    rw [initStore_closed rs sm info hval]
    refine ⟨rs, hval, hnd, Or.inr (Or.inl ⟨rfl, ?_⟩)⟩
    rintro fi ⟨rfl⟩
    refine ⟨rfl, fun k hk => ?_⟩
    exact (scanElems_mem rs hval k).mpr hk

theorem GoodSt_commit {st : StoreSt} (r : JVal) (b : Bool) (h : GoodSt st) :
    GoodSt (commit r b st).2 := by
  obtain ⟨rs, hval, hnd, hcase⟩ := h
  by_cases hkey : ∃ fs k, r = JVal.jobj fs ∧ objGet fs "Case_No" = some k ∧
      jtruthy k = true ∧ k ≠ jstr "N/A"
  · obtain ⟨fs, k, rfl, hget, ht, hsent⟩ := hkey
    cases hinfo : st.info with
    | none =>
      rw [commit_noop _ b st (Or.inr (Or.inr (Or.inr (Or.inl hinfo))))]
      exact ⟨rs, hval, hnd, hcase⟩
    | some fi =>
      by_cases hmem : k ∈ fi.seenCases
      · rw [commit_noop _ b st (Or.inr (Or.inr (Or.inr (Or.inr
          ⟨fi, k, hinfo, by simp [keyOf, hget], hmem⟩))))]
        exact ⟨rs, hval, hnd, hcase⟩
      · -- the store is open: an in-memory entry exists
        rcases hcase with ⟨hf, hrs, hi⟩ | ⟨hf, hi⟩ | ⟨hf, hi⟩
        · rw [hinfo] at hi; cases hi
        · obtain ⟨hcnt, hseen⟩ := hi fi hinfo
          have hknotin : k ∉ keysOfL rs := fun hk => hmem (hseen k hk)
          cases b with
          | true =>
            rw [commit_success fs k fi st hget ht hsent hinfo hmem]
            refine ⟨rs ++ [JVal.jobj fs], ?_, ?_, Or.inr (Or.inl ⟨?_, ?_⟩)⟩
            · intro r hr
              rcases List.mem_append.mp hr with hr | hr
              · exact hval r hr
              · simp at hr
                subst hr
                exact ⟨fs, k, rfl, hget, ht, hsent⟩
            · rw [keysOfL_concat_of_key rs _ k (by simp [keyOf, hget])]
              rw [List.nodup_append]
              refine ⟨hnd, by simp, ?_⟩
              intro a ha
              simp only [List.mem_singleton]
              intro he
              subst he
              exact hknotin ha
            · simp only [hf, Option.getD_some, hcnt]
              rw [rendered_concat]
              simp [List.append_assoc]
            · rintro fi' ⟨rfl⟩
              constructor
              · simp [hcnt]
              · intro k' hk'
                rw [keysOfL_concat_of_key rs _ k (by simp [keyOf, hget])] at hk'
                rw [setAdd_mem]
                rcases List.mem_append.mp hk' with hk' | hk'
                · exact Or.inl (hseen k' hk')
                · simp at hk'
                  exact Or.inr hk'
          | false =>
            rw [commit_failwrite fs k fi st hget ht hsent hinfo hmem]
            refine ⟨rs, hval, hnd, Or.inr (Or.inl ⟨hf, ?_⟩)⟩
            rintro fi' ⟨rfl⟩
            refine ⟨hcnt, fun k' hk' => ?_⟩
            rw [setAdd_mem]
            exact Or.inl (hseen k' hk')
        · rw [hinfo] at hi; cases hi
  · -- invalid record: rejected without state change
    have hnoop : commit r b st = (false, st) := by
      apply commit_noop
      cases r with
      | jobj fs =>
        cases hg : objGet fs "Case_No" with
        | none => exact Or.inr (Or.inl (by simp [keyOf, hg]))
        | some k =>
          by_cases ht : jtruthy k = true
          · by_cases hs : k = jstr "N/A"
            · exact Or.inr (Or.inr (Or.inl ⟨k, by simp [keyOf, hg], Or.inr hs⟩))
            · exact absurd ⟨fs, k, rfl, hg, ht, hs⟩ hkey
          · exact Or.inr (Or.inr (Or.inl ⟨k, by simp [keyOf, hg],
              Or.inl (by simpa using ht)⟩))
      | jnull => exact Or.inl rfl
      | jbool bb =>
        cases bb with
        | false => exact Or.inl rfl
        | true => exact Or.inr (Or.inl rfl)
      | jnum n => exact Or.inr (Or.inl rfl)
      | jstr s => exact Or.inr (Or.inl rfl)
      | jarr xs => exact Or.inr (Or.inl rfl)
    rw [hnoop]
    exact ⟨rs, hval, hnd, hcase⟩

theorem GoodSt_finalize {st : StoreSt} (now : String) (h : GoodSt st) :
    GoodSt (finalize now st).2 := by
  obtain ⟨rs, hval, hnd, hcase⟩ := h
  cases hinfo : st.info with
  | none =>
    rw [finalize_noop now st hinfo]
    exact ⟨rs, hval, hnd, hcase⟩
  | some fi =>
    rcases hcase with ⟨hf, hrs, hi⟩ | ⟨hf, hi⟩ | ⟨hf, hi⟩
    · rw [hinfo] at hi; cases hi
    · rw [finalize_some now st fi hinfo]
      refine ⟨rs, hval, hnd, Or.inr (Or.inr ⟨?_, rfl⟩)⟩
      simp [hf]
    · rw [hinfo] at hi; cases hi

theorem GoodSt_step (o : Op) {st : StoreSt} (h : GoodSt st) : GoodSt (step o st) := by
  cases o with
  | opInit => exact GoodSt_initStore h
  | opCommit r => exact GoodSt_commit r true h
  | opCommitFail r => exact GoodSt_commit r false h
  | opFinalize now => exact GoodSt_finalize now h
  | opCrash =>
    obtain ⟨rs, hval, hnd, hcase⟩ := h
    refine ⟨rs, hval, hnd, ?_⟩
    rcases hcase with ⟨hf, hrs, hi⟩ | ⟨hf, hi⟩ | ⟨hf, hi⟩
    · exact Or.inl ⟨hf, hrs, rfl⟩
    · exact Or.inr (Or.inl ⟨hf, by rintro fi ⟨rfl⟩⟩)
    · exact Or.inr (Or.inr ⟨hf, rfl⟩)

theorem GoodSt_run (ops : List Op) : GoodSt (run ops) := by
  suffices h : ∀ st, GoodSt st → GoodSt (ops.foldl (fun s o => step o s) st) from
    h st0 GoodSt_st0
  induction ops with
  | nil => exact fun st h => h
  | cons o os ih =>
    intro st h
    exact ih (step o st) (GoodSt_step o h)

/-! ## Running a batch of accepting commits -/

theorem commits_fold (xs : List JVal) :
    ∀ (cur seen : List JVal) (sm : Option Summary),
      (∀ r ∈ xs, validRec r) →
      (∀ k ∈ keysOfL xs, k ∉ seen) →
      (keysOfL xs).Nodup →
      List.foldl (fun s o => step o s)
          ⟨⟨some (rendered cur), sm⟩, some ⟨cur.length, seen⟩⟩ (xs.map Op.opCommit)
        = ⟨⟨some (rendered (cur ++ xs)), sm⟩,
            some ⟨(cur ++ xs).length, seen ++ keysOfL xs⟩⟩ := by
  induction xs with
  | nil => intro cur seen sm _ _ _; simp [keysOfL]
  | cons x xs ih =>
    intro cur seen sm hv hdisj hnd
    obtain ⟨fs, k, rfl, hget, ht, hs⟩ := hv x (by simp)
    have hkx : keyOf (JVal.jobj fs) = some k := by simp [keyOf, hget]
    have hkeys : keysOfL (JVal.jobj fs :: xs) = k :: keysOfL xs := by
      simp [keysOfL, List.filterMap_cons, hkx]
    have hmem : k ∉ seen := hdisj k (by rw [hkeys]; simp)
    have hstep : step (Op.opCommit (JVal.jobj fs))
        ⟨⟨some (rendered cur), sm⟩, some ⟨cur.length, seen⟩⟩
        = ⟨⟨some (rendered (cur ++ [JVal.jobj fs])), sm⟩,
            some ⟨(cur ++ [JVal.jobj fs]).length, seen ++ [k]⟩⟩ := by
      rw [show step (Op.opCommit (JVal.jobj fs))
          ⟨⟨some (rendered cur), sm⟩, some ⟨cur.length, seen⟩⟩
          = (commit (JVal.jobj fs) true
              ⟨⟨some (rendered cur), sm⟩, some ⟨cur.length, seen⟩⟩).2 from rfl]
      rw [commit_success fs k ⟨cur.length, seen⟩ _ hget ht hs rfl hmem]
      simp only [Option.getD_some]
      rw [show setAdd seen k = seen ++ [k] from by simp [setAdd, hmem]]
      rw [show rendered (cur ++ [JVal.jobj fs])
          = rendered cur ++ ((if 0 < cur.length then [',', '\n'] else [])
              ++ jdump 0 (JVal.jobj fs)) from by rw [rendered_concat]; simp]
      simp
    rw [List.map_cons, List.foldl_cons, hstep]
    have hnd' : (keysOfL xs).Nodup := by
      rw [hkeys] at hnd
      exact hnd.of_cons
    have hdisj' : ∀ k' ∈ keysOfL xs, k' ∉ seen ++ [k] := by
      intro k' hk'
      rw [List.mem_append, List.mem_singleton]
      rintro (h | rfl)
      · exact hdisj k' (by rw [hkeys]; simp [hk']) h
      · rw [hkeys] at hnd
        exact (List.nodup_cons.mp hnd).1 hk'
    rw [ih (cur ++ [JVal.jobj fs]) (seen ++ [k]) sm
      (fun r hr => hv r (by simp [hr])) hdisj' hnd']
    rw [hkeys]
    simp

/-! ## Declarative characterization of the recovery scan -/

/-- The key that the recovery loop of `initialize_json_file` extracts from
one parsed element: present exactly when the element is a dict with a truthy
`Case_No` (the sentinel `"N/A"` is *not* filtered here). -/
def acceptedKey : JVal → Option JVal
  | JVal.jobj fs =>
    match objGet fs "Case_No" with
    | some k => if jtruthy k then some k else none
    | none => none
  | _ => none

theorem scanStep_acceptedKey (acc : List JVal × Nat) (v : JVal) :
    scanStep acc v = match acceptedKey v with
      | some k => (setAdd acc.1 k, acc.2 + 1)
      | none => acc := by
  cases v with
  | jobj fs =>
    rw [scanStep, acceptedKey]
    cases hg : objGet fs "Case_No" with
    | none => simp
    | some k =>
      by_cases ht : jtruthy k = true <;> simp [ht]
  | jnull => rfl
  | jbool b => rfl
  | jnum n => rfl
  | jstr s => rfl
  | jarr xs => rfl

theorem scanElems_charact_go (elems : List JVal) :
    ∀ acc : List JVal × Nat,
      (elems.foldl scanStep acc).2 = acc.2 + (elems.filterMap acceptedKey).length ∧
      (∀ x, x ∈ (elems.foldl scanStep acc).1 ↔
        x ∈ acc.1 ∨ x ∈ elems.filterMap acceptedKey) := by
  induction elems with
  | nil => intro acc; simp
  | cons v vs ih =>
    intro acc
    rw [List.foldl_cons, scanStep_acceptedKey]
    cases hk : acceptedKey v with
    | none =>
      obtain ⟨ih1, ih2⟩ := ih acc
      rw [List.filterMap_cons, hk]
      exact ⟨ih1, fun x => ih2 x⟩
    | some k =>
      obtain ⟨ih1, ih2⟩ := ih (setAdd acc.1 k, acc.2 + 1)
      rw [List.filterMap_cons, hk]
      constructor
      · rw [ih1]
        simp
        omega
      · intro x
        rw [ih2 x]
        simp only [setAdd_mem, List.mem_cons]
        tauto

theorem scanElems_count_charact (elems : List JVal) :
    (scanElems elems).2 = (elems.filterMap acceptedKey).length := by
  have := (scanElems_charact_go elems ([], 0)).1
  simpa [scanElems] using this

theorem scanElems_mem_charact (elems : List JVal) (x : JVal) :
    x ∈ (scanElems elems).1 ↔ x ∈ elems.filterMap acceptedKey := by
  have := (scanElems_charact_go elems ([], 0)).2 x
  simpa [scanElems] using this

/-! ## Concrete records used in counterexamples and witnesses -/

/-- A concrete record with key "A". -/
def recA : JVal := jobj [("Case_No", jstr "A")]

/-- A concrete record with key "B". -/
def recB : JVal := jobj [("Case_No", jstr "B")]

/-- A concrete record with key "C". -/
def recC : JVal := jobj [("Case_No", jstr "C")]

/-! ## The claims -/

/-- C6: a record whose key field is absent or equal to the sentinel `"N/A"`,
a record whose key is already in `seen_cases`, and a record offered against a
store that is not open, are all rejected: `write_case_incrementally` returns
`False` and the state (file bytes, `committed_count`, `seen_cases`, summary)
is exactly unchanged. -/
theorem claim_c6 (r : JVal) (st : StoreSt) (b : Bool)
    (h : keyOf r = none ∨ keyOf r = some (jstr "N/A") ∨ st.info = none ∨
      (∃ fi k, st.info = some fi ∧ keyOf r = some k ∧ k ∈ fi.seenCases)) :
    commit r b st = (false, st) := by
  apply commit_noop
  rcases h with h | h | h | h
  · exact Or.inr (Or.inl h)
  · exact Or.inr (Or.inr (Or.inl ⟨jstr "N/A", h, Or.inr rfl⟩))
  · exact Or.inr (Or.inr (Or.inr (Or.inl h)))
  · exact Or.inr (Or.inr (Or.inr (Or.inr h)))

theorem claim_c6_witness :
    (keyOf (jobj [("Other", jstr "x")]) = none ∨
      keyOf (jobj [("Other", jstr "x")]) = some (jstr "N/A") ∨ st0.info = none ∨
      (∃ fi k, st0.info = some fi ∧ keyOf (jobj [("Other", jstr "x")]) = some k ∧
        k ∈ fi.seenCases)) ∧
    commit (jobj [("Other", jstr "x")]) true st0 = (false, st0) :=
  ⟨Or.inl (by decide), claim_c6 (jobj [("Other", jstr "x")]) st0 true (Or.inl (by decide))⟩

/-- C10: an empty/`None` record and a record whose key is the empty string
take the same silent-rejection path as a missing key: `False` is returned and
nothing at all changes. -/
theorem claim_c10 (st : StoreSt) (b : Bool) (fs : List (String × JVal))
    (hfs : objGet fs "Case_No" = some (jstr "")) :
    commit jnull b st = (false, st) ∧ commit (jobj []) b st = (false, st) ∧
      commit (jobj fs) b st = (false, st) := by
  refine ⟨commit_noop _ _ _ (Or.inl rfl), commit_noop _ _ _ (Or.inl rfl), ?_⟩
  exact commit_noop _ _ _ (Or.inr (Or.inr (Or.inl
    ⟨jstr "", by simp [keyOf, hfs], Or.inl rfl⟩)))

theorem claim_c10_witness :
    objGet [("Case_No", jstr "")] "Case_No" = some (jstr "") ∧
    (commit jnull true st0 = (false, st0) ∧ commit (jobj []) true st0 = (false, st0) ∧
      commit (jobj [("Case_No", jstr "")]) true st0 = (false, st0)) :=
  ⟨by decide, claim_c10 st0 true [("Case_No", jstr "")] (by decide)⟩

/-- C5 fails on the code: the first `finalize_json_file` returns `True`, the
second returns `False` (the function returns a success flag, not a summary),
so the second call does not "return the same summary as the first". -/
theorem claim_c5_counterexample :
    (finalize "t" (run [Op.opInit])).1 = true ∧
    finalize "t" (finalize "t" (run [Op.opInit])).2
      = (false, (finalize "t" (run [Op.opInit])).2) := by
  constructor
  · decide
  · decide

/-- C5 amended: calling `finalize_json_file` a second time is a no-op that
returns `False` (not the summary): the first call removed the
`active_json_files` entry, so the second appends nothing, leaves the file and
the sidecar summary exactly as the first call left them, and fails fast. -/
theorem claim_c5_amended (now now' : String) (st : StoreSt) (fi : FileInfo)
    (h : st.info = some fi) :
    (finalize now st).1 = true ∧
    finalize now' (finalize now st).2 = (false, (finalize now st).2) := by
  rw [finalize_some now st fi h]
  exact ⟨rfl, finalize_noop now' _ rfl⟩

theorem claim_c5_witness :
    (run [Op.opInit]).info = some ⟨0, []⟩ ∧
    ((finalize "t" (run [Op.opInit])).1 = true ∧
      finalize "u" (finalize "t" (run [Op.opInit])).2
        = (false, (finalize "t" (run [Op.opInit])).2)) :=
  ⟨by decide, claim_c5_amended "t" "u" (run [Op.opInit]) ⟨0, []⟩ (by decide)⟩

/-- C4 fails on the code: a failing file write during
`write_case_incrementally` is swallowed by the `except` (the call returns
`False`, no error propagates), and `seen_cases` was already updated before
the write — so retrying the same record is falsely rejected as a duplicate. -/
theorem claim_c4_counterexample :
    run [Op.opInit, Op.opCommitFail recA]
      = ⟨⟨some newArrFile, none⟩, some ⟨0, [jstr "A"]⟩⟩ ∧
    commit recA true (run [Op.opInit, Op.opCommitFail recA])
      = (false, run [Op.opInit, Op.opCommitFail recA]) := by
  constructor
  · decide
  · decide

/-- C4 amended: when the file write fails inside `write_case_incrementally`,
the exception is caught and the call returns `False` with the disk untouched;
but `seen_cases` already holds the key, so every later commit of the same
record is rejected as a duplicate (returns `False`, changes nothing). -/
theorem claim_c4_amended (fs : List (String × JVal)) (k : JVal) (fi : FileInfo)
    (st : StoreSt) (hget : objGet fs "Case_No" = some k) (ht : jtruthy k = true)
    (hs : k ≠ jstr "N/A") (hfi : st.info = some fi) (hmem : k ∉ fi.seenCases) :
    commit (JVal.jobj fs) false st
      = (false, ⟨st.disk, some ⟨fi.caseCount, setAdd fi.seenCases k⟩⟩) ∧
    k ∈ setAdd fi.seenCases k ∧
    ∀ st' : StoreSt, st'.info = some ⟨fi.caseCount, setAdd fi.seenCases k⟩ →
      commit (JVal.jobj fs) true st' = (false, st') := by
  refine ⟨commit_failwrite fs k fi st hget ht hs hfi hmem, ?_, ?_⟩
  · rw [setAdd_mem]
    exact Or.inr rfl
  · intro st' hst'
    exact commit_noop _ _ _ (Or.inr (Or.inr (Or.inr (Or.inr
      ⟨_, k, hst', by simp [keyOf, hget], by rw [setAdd_mem]; exact Or.inr rfl⟩))))

theorem claim_c4_witness :
    (objGet [("Case_No", jstr "A")] "Case_No" = some (jstr "A") ∧
      jtruthy (jstr "A") = true ∧ jstr "A" ≠ jstr "N/A" ∧
      (run [Op.opInit]).info = some ⟨0, []⟩ ∧ jstr "A" ∉ ([] : List JVal).append []) ∧
    (commit (JVal.jobj [("Case_No", jstr "A")]) false (run [Op.opInit])
      = (false, ⟨(run [Op.opInit]).disk, some ⟨0, setAdd [] (jstr "A")⟩⟩) ∧
    jstr "A" ∈ setAdd [] (jstr "A") ∧
    ∀ st' : StoreSt, st'.info = some ⟨0, setAdd [] (jstr "A")⟩ →
      commit (JVal.jobj [("Case_No", jstr "A")]) true st' = (false, st')) :=
  ⟨⟨by decide, by decide, by decide, by decide, by decide⟩,
    claim_c4_amended [("Case_No", jstr "A")] (jstr "A") ⟨0, []⟩ (run [Op.opInit])
      (by decide) (by decide) (by decide) (by decide) (by decide)⟩

/-- C7 fails on the code: open → finalize with zero commits produces the
valid empty-array file `[\n\n]`, but *no* sidecar summary is written, because
`finalize_json_file` only writes the summary when `case_count > 0`. -/
theorem claim_c7_counterexample :
    jsonLoads ((run [Op.opInit, Op.opFinalize "t"]).disk.file.getD [])
      = some (jarr []) ∧
    (run [Op.opInit, Op.opFinalize "t"]).disk.summaryFile = none := by
  constructor
  · decide
  · decide

/-- C7 amended: open on a fresh path followed by finalize with zero commits
yields a file that parses as the empty JSON array, but persists no sidecar
summary (the `case_count > 0` guard skips it), leaving the summary file
absent. -/
theorem claim_c7_amended (now : String) :
    (run [Op.opInit, Op.opFinalize now]).disk.file
      = some (rendered [] ++ ['\n', ']']) ∧
    jsonLoads (rendered [] ++ ['\n', ']']) = some (jarr []) ∧
    (run [Op.opInit, Op.opFinalize now]).disk.summaryFile = none := by
  have h1 : run [Op.opInit, Op.opFinalize now]
      = (finalize now ⟨⟨some newArrFile, none⟩, some ⟨0, []⟩⟩).2 := rfl
  rw [h1, finalize_some now _ ⟨0, []⟩ rfl]
  refine ⟨by simp [rendered, jfileBody, newArrFile], ?_, by simp⟩
  have h := jsonLoads_rendered [] ['\n'] [] (by intro c hc; simp at hc; subst hc; decide)
  simpa using h

/-- C3 fails on the code: the pre-existing file `[1, {"Case_No": "N/A"}]`
parses as a two-element JSON array, yet `initialize_json_file` sets
`case_count` to 1 (only dict elements with truthy key are counted, not all
parsed elements) and puts the sentinel `"N/A"` into `seen_cases` (the claim
says sentinel keys are excluded). -/
theorem claim_c3_counterexample :
    jsonLoads ("[1, \x7b\"Case_No\": \"N/A\"\x7d]".data)
      = some (jarr [jnum 1, jobj [("Case_No", jstr "N/A")]]) ∧
    initStore ⟨⟨some ("[1, \x7b\"Case_No\": \"N/A\"\x7d]".data), none⟩, none⟩
      = ⟨⟨some ("[1, \x7b\"Case_No\": \"N/A\"\x7d".data), none⟩,
          some ⟨1, [jstr "N/A"]⟩⟩ := by
  constructor
  · decide
  · decide

/-- C3 amended: for a pre-existing file whose stripped content is neither
empty nor `[]`, starts with `[` and ends with `]`, re-parses as a JSON
array after its trailing `]`s and whitespace are stripped and a `]` is
appended, and none of whose parsed elements is a dict carrying a truthy
*unhashable* `Case_No` (a list or dict key makes `existing_cases.add` raise
`TypeError`, which escapes the `json.JSONDecodeError` handler into the
outer `except` and resets the file to `[\n` with count 0 and empty
`seen_cases`), `initialize_json_file` sets `committed_count` to the number
of parsed elements that are dicts with a *truthy* `Case_No` (not to the
number of all parsed elements), puts exactly those keys — all hashable,
the sentinel `"N/A"` included — into `seen_cases`, and rewrites the file
to the stripped content, stripped once more of trailing `]`s and
whitespace (resetting to `[\n` when the count is zero). -/
theorem claim_c3_amended (raw : List Char) (elems : List JVal)
    (sm : Option Summary) (info0 : Option FileInfo)
    (h1 : ¬(pyStrip raw = [] ∨ pyStrip raw = ['[', ']']))
    (h2 : (pyStrip raw).head? = some '[' ∧ (pyStrip raw).getLast? = some ']')
    (h3 : jsonLoads (pyRstrip (pyRstripBr (pyStrip raw)) ++ [']'])
      = some (jarr elems))
    (h4 : ∀ v ∈ elems, scanRaisesAt v = false) :
    initStore ⟨⟨some raw, sm⟩, info0⟩
      = ⟨⟨some (if 0 < (elems.filterMap acceptedKey).length
            then pyRstrip (pyRstripBr (pyRstrip (pyRstripBr (pyStrip raw))))
            else newArrFile), sm⟩,
          some ⟨(elems.filterMap acceptedKey).length, (scanElems elems).1⟩⟩ ∧
    (∀ x, x ∈ (scanElems elems).1 ↔ x ∈ elems.filterMap acceptedKey) ∧
    (∀ x ∈ (scanElems elems).1, hashableJ x = true) := by
  refine ⟨?_, scanElems_mem_charact elems, ?_⟩
  · simp only [initStore]
    rw [if_neg h1, if_pos h2, h3]
    simp only [scanElems_count_charact]
  · intro x hx
    rw [scanElems_mem_charact] at hx
    obtain ⟨v, hv, hk⟩ := List.mem_filterMap.mp hx
    have h4v := h4 v hv
    cases v with
    | jobj fs =>
      rw [acceptedKey] at hk
      rw [scanRaisesAt] at h4v
      cases hg : objGet fs "Case_No" with
      | none =>
        rw [hg] at hk
        cases hk
      | some k =>
        simp only [hg] at hk h4v
        by_cases ht : jtruthy k = true
        · rw [if_pos ht] at hk
          injection hk with hk
          subst hk
          simpa [ht] using h4v
        · rw [if_neg ht] at hk
          cases hk
    | jnull => simp [acceptedKey] at hk
    | jbool bb => simp [acceptedKey] at hk
    | jnum n => simp [acceptedKey] at hk
    | jstr s => simp [acceptedKey] at hk
    | jarr xs => simp [acceptedKey] at hk

theorem claim_c3_witness :
    (¬(pyStrip ("[1, \x7b\"Case_No\": \"N/A\"\x7d]".data) = [] ∨
        pyStrip ("[1, \x7b\"Case_No\": \"N/A\"\x7d]".data) = ['[', ']']) ∧
      ((pyStrip ("[1, \x7b\"Case_No\": \"N/A\"\x7d]".data)).head? = some '[' ∧
        (pyStrip ("[1, \x7b\"Case_No\": \"N/A\"\x7d]".data)).getLast? = some ']') ∧
      jsonLoads (pyRstrip (pyRstripBr (pyStrip ("[1, \x7b\"Case_No\": \"N/A\"\x7d]".data)))
          ++ [']'])
        = some (jarr [jnum 1, jobj [("Case_No", jstr "N/A")]]) ∧
      (∀ v ∈ ([jnum 1, jobj [("Case_No", jstr "N/A")]] : List JVal),
        scanRaisesAt v = false)) ∧
    (initStore ⟨⟨some ("[1, \x7b\"Case_No\": \"N/A\"\x7d]".data), none⟩, none⟩
      = ⟨⟨some (if 0 < ([jnum 1, jobj [("Case_No", jstr "N/A")]].filterMap
              acceptedKey).length
            then pyRstrip (pyRstripBr (pyRstrip (pyRstripBr
              (pyStrip ("[1, \x7b\"Case_No\": \"N/A\"\x7d]".data)))))
            else newArrFile), none⟩,
          some ⟨([jnum 1, jobj [("Case_No", jstr "N/A")]].filterMap
            acceptedKey).length,
            (scanElems [jnum 1, jobj [("Case_No", jstr "N/A")]]).1⟩⟩ ∧
      (∀ x, x ∈ (scanElems [jnum 1, jobj [("Case_No", jstr "N/A")]]).1 ↔
        x ∈ [jnum 1, jobj [("Case_No", jstr "N/A")]].filterMap acceptedKey) ∧
      (∀ x ∈ (scanElems [jnum 1, jobj [("Case_No", jstr "N/A")]]).1,
        hashableJ x = true)) :=
  ⟨⟨by decide, by decide, by decide, by decide⟩,
    claim_c3_amended ("[1, \x7b\"Case_No\": \"N/A\"\x7d]".data)
      [jnum 1, jobj [("Case_No", jstr "N/A")]] none none
      (by decide) (by decide) (by decide) (by decide)⟩

/-! ## Remaining helpers for C1, C2, C8, C9 -/

theorem commit_noop_invalid (r : JVal) (b : Bool) (st : StoreSt)
    (hkey : ¬ ∃ fs k, r = JVal.jobj fs ∧ objGet fs "Case_No" = some k ∧
      jtruthy k = true ∧ k ≠ jstr "N/A") :
    commit r b st = (false, st) := by
  apply commit_noop
  cases r with
  | jobj fs =>
    cases hg : objGet fs "Case_No" with
    | none => exact Or.inr (Or.inl (by simp [keyOf, hg]))
    | some k =>
      by_cases ht : jtruthy k = true
      · by_cases hs : k = jstr "N/A"
        · exact Or.inr (Or.inr (Or.inl ⟨k, by simp [keyOf, hg], Or.inr hs⟩))
        · exact absurd ⟨fs, k, rfl, hg, ht, hs⟩ hkey
      · exact Or.inr (Or.inr (Or.inl ⟨k, by simp [keyOf, hg],
          Or.inl (by simpa using ht)⟩))
  | jnull => exact Or.inl rfl
  | jbool bb =>
    cases bb with
    | false => exact Or.inl rfl
    | true => exact Or.inr (Or.inl rfl)
  | jnum n => exact Or.inr (Or.inl rfl)
  | jstr s => exact Or.inr (Or.inl rfl)
  | jarr xs => exact Or.inr (Or.inl rfl)

theorem commit_file_append (r : JVal) (b : Bool) (st : StoreSt) :
    ∃ t, ((commit r b st).2).disk.file.getD [] = st.disk.file.getD [] ++ t := by
  by_cases hkey : ∃ fs k, r = JVal.jobj fs ∧ objGet fs "Case_No" = some k ∧
      jtruthy k = true ∧ k ≠ jstr "N/A"
  · obtain ⟨fs, k, rfl, hget, ht, hs⟩ := hkey
    cases hinfo : st.info with
    | none =>
      exact ⟨[], by
        rw [commit_noop _ b st (Or.inr (Or.inr (Or.inr (Or.inl hinfo))))]
        simp⟩
    | some fi =>
      by_cases hmem : k ∈ fi.seenCases
      · exact ⟨[], by
          rw [commit_noop _ b st (Or.inr (Or.inr (Or.inr (Or.inr
            ⟨fi, k, hinfo, by simp [keyOf, hget], hmem⟩))))]
          simp⟩
      · cases b with
        | true =>
          refine ⟨(if 0 < fi.caseCount then [',', '\n'] else [])
            ++ jdump 0 (JVal.jobj fs), ?_⟩
          rw [commit_success fs k fi st hget ht hs hinfo hmem]
          simp
        | false =>
          exact ⟨[], by
            rw [commit_failwrite fs k fi st hget ht hs hinfo hmem]
            simp⟩
  · exact ⟨[], by rw [commit_noop_invalid r b st hkey]; simp⟩

theorem flatten_length_const (workers : List (List JVal)) (M : Nat)
    (h : ∀ w ∈ workers, w.length = M) :
    workers.flatten.length = workers.length * M := by
  induction workers with
  | nil => simp
  | cons w ws ih =>
    have hw : w.length = M := h w (by simp)
    have hws := ih (fun w hw => h w (by simp [hw]))
    simp [List.flatten_cons, hw, hws]
    ring

/-- C1: across every sequence of operations against one path — commits with
succeeding or failing writes, crashes, finalizes and reopens included — the
output JSON array file (read either as it stands or with the recovery `]`
appended) never holds two elements with the same record key, and offering a
record whose key is already among the file's elements returns `False` with
the state unchanged (so nothing is appended). -/
theorem claim_c1 (ops : List Op) (s : List Char) (elems : List JVal)
    (hf : (run ops).disk.file = some s)
    (hp : jsonLoads s = some (jarr elems)
      ∨ jsonLoads (s ++ [']']) = some (jarr elems)) :
    (keysOfL elems).Nodup ∧
      ∀ r k, keyOf r = some k → k ∈ keysOfL elems →
        commit r true (run ops) = (false, run ops) := by
  obtain ⟨rs, hval, hnd, hcase⟩ := GoodSt_run ops
  have key_part : elems = rs ∧ ((run ops).info = none ∨
      ∃ fi, (run ops).info = some fi ∧ ∀ k ∈ keysOfL rs, k ∈ fi.seenCases) := by
    rcases hcase with ⟨hfile, hrs, hi⟩ | ⟨hfile, hi⟩ | ⟨hfile, hi⟩
    · rw [hf] at hfile
      cases hfile
    · rw [hf] at hfile
      injection hfile with hfile
      subst hfile
      constructor
      · rcases hp with hp | hp
        · rw [jsonLoads_rendered_open] at hp
          cases hp
        · have h := jsonLoads_rendered rs [] [] (by simp)
          simp only [List.nil_append] at h
          rw [h] at hp
          simp [skipWs] at hp
          exact hp.symm
      · cases hfi : (run ops).info with
        | none => exact Or.inl rfl
        | some fi => exact Or.inr ⟨fi, rfl, (hi fi hfi).2⟩
    · rw [hf] at hfile
      injection hfile with hfile
      subst hfile
      refine ⟨?_, Or.inl hi⟩
      rcases hp with hp | hp
      · have h := jsonLoads_rendered rs ['\n'] []
          (by intro c hc; simp at hc; subst hc; decide)
        simp only [List.singleton_append] at h
        rw [h] at hp
        simp [skipWs] at hp
        exact hp.symm
      · have h := jsonLoads_rendered rs ['\n'] [']']
          (by intro c hc; simp at hc; subst hc; decide)
        simp only [List.singleton_append] at h
        rw [show (rendered rs ++ ['\n', ']']) ++ [']']
            = rendered rs ++ ['\n', ']', ']'] from by simp] at hp
        rw [h] at hp
        rw [if_neg (by decide)] at hp
        cases hp
  obtain ⟨helems, hinfo⟩ := key_part
  subst helems
  refine ⟨hnd, ?_⟩
  intro r k hk hkmem
  rcases hinfo with hinfo | ⟨fi, hinfo, hseen⟩
  · exact commit_noop _ _ _ (Or.inr (Or.inr (Or.inr (Or.inl hinfo))))
  · exact commit_noop _ _ _ (Or.inr (Or.inr (Or.inr (Or.inr
      ⟨fi, k, hinfo, hk, hseen k hkmem⟩))))

theorem claim_c1_witness :
    ((run [Op.opInit, Op.opCommit recA, Op.opFinalize "t"]).disk.file
        = some ("[\n\x7b\n  \"Case_No\": \"A\"\n\x7d\n]".data) ∧
      jsonLoads ("[\n\x7b\n  \"Case_No\": \"A\"\n\x7d\n]".data) = some (jarr [recA])) ∧
    ((keysOfL [recA]).Nodup ∧
      ∀ r k, keyOf r = some k → k ∈ keysOfL [recA] →
        commit r true (run [Op.opInit, Op.opCommit recA, Op.opFinalize "t"])
          = (false, run [Op.opInit, Op.opCommit recA, Op.opFinalize "t"])) :=
  ⟨⟨by decide, by decide⟩,
    claim_c1 [Op.opInit, Op.opCommit recA, Op.opFinalize "t"]
      ("[\n\x7b\n  \"Case_No\": \"A\"\n\x7d\n]".data) [recA] (by decide)
      (Or.inl (by decide))⟩

/-- C9: with the single `results_lock` held for the whole
check-append-update sequence, each commit is one atomic step; any concurrent
execution of N workers' commits is then some interleaving of those steps,
i.e. a run over some permutation of the workers' record lists.  For every
such interleaving of N workers each holding M distinct-keyed records, the
finalized file is valid JSON containing exactly the N·M committed records,
keys pairwise distinct. -/
theorem claim_c9 (workers : List (List JVal)) (sched : List JVal) (now : String)
    (N M : Nat) (hperm : sched.Perm workers.flatten)
    (hv : ∀ r ∈ sched, validRec r) (hnd : (keysOfL sched).Nodup)
    (hN : workers.length = N) (hM : ∀ w ∈ workers, w.length = M) :
    (run ([Op.opInit] ++ sched.map Op.opCommit ++ [Op.opFinalize now])).disk.file
      = some (rendered sched ++ ['\n', ']']) ∧
    jsonLoads (rendered sched ++ ['\n', ']']) = some (jarr sched) ∧
    sched.length = N * M := by
  have hdisj : ∀ k ∈ keysOfL sched, k ∉ ([] : List JVal) := by simp
  have hrun : run ([Op.opInit] ++ sched.map Op.opCommit ++ [Op.opFinalize now])
      = (finalize now ⟨⟨some (rendered sched), none⟩,
          some ⟨sched.length, keysOfL sched⟩⟩).2 := by
    rw [show run ([Op.opInit] ++ sched.map Op.opCommit ++ [Op.opFinalize now])
        = List.foldl (fun s o => step o s) st0
            ([Op.opInit] ++ sched.map Op.opCommit ++ [Op.opFinalize now]) from rfl]
    rw [List.foldl_append, List.foldl_append]
    rw [show List.foldl (fun s o => step o s) st0 [Op.opInit]
        = ⟨⟨some (rendered []), none⟩,
            some ⟨(([] : List JVal)).length, ([] : List JVal)⟩⟩ from rfl]
    rw [commits_fold sched [] [] none hv hdisj hnd]
    simp only [List.nil_append]
    rfl
  rw [hrun, finalize_some now _ ⟨sched.length, keysOfL sched⟩ rfl]
  refine ⟨by simp, ?_, ?_⟩
  · have h := jsonLoads_rendered sched ['\n'] []
      (by intro c hc; simp at hc; subst hc; decide)
    simp only [List.singleton_append] at h
    simpa [skipWs] using h
  · have hlen := hperm.length_eq
    rw [flatten_length_const workers M hM] at hlen
    rw [hlen, hN]

theorem claim_c9_witness :
    (([recA, recB] : List JVal).Perm ([[recA], [recB]] : List (List JVal)).flatten ∧
      (∀ r ∈ ([recA, recB] : List JVal), validRec r) ∧
      (keysOfL [recA, recB]).Nodup ∧
      ([[recA], [recB]] : List (List JVal)).length = 2 ∧
      (∀ w ∈ ([[recA], [recB]] : List (List JVal)), w.length = 1)) ∧
    ((run ([Op.opInit] ++ ([recA, recB] : List JVal).map Op.opCommit
        ++ [Op.opFinalize "t"])).disk.file
      = some (rendered [recA, recB] ++ ['\n', ']']) ∧
    jsonLoads (rendered [recA, recB] ++ ['\n', ']']) = some (jarr [recA, recB]) ∧
    ([recA, recB] : List JVal).length = 2 * 1) := by
  have hva : validRec recA :=
    ⟨[("Case_No", jstr "A")], jstr "A", rfl, by decide, by decide, by decide⟩
  have hvb : validRec recB :=
    ⟨[("Case_No", jstr "B")], jstr "B", rfl, by decide, by decide, by decide⟩
  have hv : ∀ r ∈ ([recA, recB] : List JVal), validRec r := by
    intro r hr
    rcases List.mem_cons.mp hr with rfl | hr
    · exact hva
    · rcases List.mem_cons.mp hr with rfl | hr
      · exact hvb
      · cases hr
  refine ⟨⟨by decide, hv, by decide, by decide, ?_⟩, ?_⟩
  · intro w hw
    rcases List.mem_cons.mp hw with rfl | hw
    · rfl
    · rcases List.mem_cons.mp hw with rfl | hw
      · rfl
      · cases hw
  · exact claim_c9 [[recA], [recB]] [recA, recB] "t" 2 1 (by decide) hv
      (by decide) (by decide)
      (by
        intro w hw
        rcases List.mem_cons.mp hw with rfl | hw
        · rfl
        · rcases List.mem_cons.mp hw with rfl | hw
          · rfl
          · cases hw)

/-- C2 fails on the code: after open → commit(A) → commit(B) → crash, the
file is an unterminated array, which does **not** end in `]`; the next
`initialize_json_file` therefore takes the "not proper JSON array, starting
fresh" branch and truncates the file, losing B (and A).  The subsequent
commit(A) → commit(C) → finalize run yields a file containing exactly
{A, C} — B is gone, so the claimed {A, B, C} outcome is false. -/
theorem claim_c2_counterexample :
    jsonLoads ((run [Op.opInit, Op.opCommit recA, Op.opCommit recB, Op.opCrash,
        Op.opInit, Op.opCommit recA, Op.opCommit recC,
        Op.opFinalize "t"]).disk.file.getD [])
      = some (jarr [recA, recC]) ∧ recB ∉ ([recA, recC] : List JVal) := by
  constructor
  · decide
  · decide

/-- C2 amended: a subsequent open on a crashed (unterminated) file does
*not* recover it — it discards the content and starts fresh with empty
`seen_cases` — so open → commit(A) → commit(B) → crash → open → commit(A) →
commit(C) → finalize yields a valid JSON array containing exactly {A, C},
each once: A is re-accepted (the recovered session forgot it) and B is lost. -/
theorem claim_c2_amended (fa fb fc : List (String × JVal)) (ka kb kc : JVal)
    (now : String)
    (hka : objGet fa "Case_No" = some ka) (hta : jtruthy ka = true)
    (hsa : ka ≠ jstr "N/A")
    (hkb : objGet fb "Case_No" = some kb) (htb : jtruthy kb = true)
    (hsb : kb ≠ jstr "N/A")
    (hkc : objGet fc "Case_No" = some kc) (htc : jtruthy kc = true)
    (hsc : kc ≠ jstr "N/A")
    (hab : ka ≠ kb) (hac : ka ≠ kc) :
    (run [Op.opInit, Op.opCommit (JVal.jobj fa), Op.opCommit (JVal.jobj fb),
        Op.opCrash, Op.opInit, Op.opCommit (JVal.jobj fa),
        Op.opCommit (JVal.jobj fc), Op.opFinalize now]).disk.file
      = some (rendered [JVal.jobj fa, JVal.jobj fc] ++ ['\n', ']']) ∧
    jsonLoads (rendered [JVal.jobj fa, JVal.jobj fc] ++ ['\n', ']'])
      = some (jarr [JVal.jobj fa, JVal.jobj fc]) := by
  have hva : validRec (JVal.jobj fa) := ⟨fa, ka, rfl, hka, hta, hsa⟩
  have hvb : validRec (JVal.jobj fb) := ⟨fb, kb, rfl, hkb, htb, hsb⟩
  have hvc : validRec (JVal.jobj fc) := ⟨fc, kc, rfl, hkc, htc, hsc⟩
  have hkab : keysOfL [JVal.jobj fa, JVal.jobj fb] = [ka, kb] := by
    simp [keysOfL, List.filterMap_cons, keyOf, hka, hkb]
  have hkac : keysOfL [JVal.jobj fa, JVal.jobj fc] = [ka, kc] := by
    simp [keysOfL, List.filterMap_cons, keyOf, hka, hkc]
  have hmem2 : ∀ r ∈ ([JVal.jobj fa, JVal.jobj fb] : List JVal), validRec r := by
    intro r hr
    rcases List.mem_cons.mp hr with rfl | hr
    · exact hva
    · rcases List.mem_cons.mp hr with rfl | hr
      · exact hvb
      · cases hr
  have hmem3 : ∀ r ∈ ([JVal.jobj fa, JVal.jobj fc] : List JVal), validRec r := by
    intro r hr
    rcases List.mem_cons.mp hr with rfl | hr
    · exact hva
    · rcases List.mem_cons.mp hr with rfl | hr
      · exact hvc
      · cases hr
  have hrun : run [Op.opInit, Op.opCommit (JVal.jobj fa), Op.opCommit (JVal.jobj fb),
      Op.opCrash, Op.opInit, Op.opCommit (JVal.jobj fa),
      Op.opCommit (JVal.jobj fc), Op.opFinalize now]
      = (finalize now ⟨⟨some (rendered [JVal.jobj fa, JVal.jobj fc]), none⟩,
          some ⟨2, keysOfL [JVal.jobj fa, JVal.jobj fc]⟩⟩).2 := by
    rw [show [Op.opInit, Op.opCommit (JVal.jobj fa), Op.opCommit (JVal.jobj fb),
        Op.opCrash, Op.opInit, Op.opCommit (JVal.jobj fa),
        Op.opCommit (JVal.jobj fc), Op.opFinalize now]
        = [Op.opInit]
          ++ (([JVal.jobj fa, JVal.jobj fb] : List JVal).map Op.opCommit
            ++ ([Op.opCrash, Op.opInit]
              ++ (([JVal.jobj fa, JVal.jobj fc] : List JVal).map Op.opCommit
                ++ [Op.opFinalize now]))) from rfl]
    rw [show run ([Op.opInit]
        ++ (([JVal.jobj fa, JVal.jobj fb] : List JVal).map Op.opCommit
          ++ ([Op.opCrash, Op.opInit]
            ++ (([JVal.jobj fa, JVal.jobj fc] : List JVal).map Op.opCommit
              ++ [Op.opFinalize now]))))
        = List.foldl (fun s o => step o s) st0 ([Op.opInit]
          ++ (([JVal.jobj fa, JVal.jobj fb] : List JVal).map Op.opCommit
            ++ ([Op.opCrash, Op.opInit]
              ++ (([JVal.jobj fa, JVal.jobj fc] : List JVal).map Op.opCommit
                ++ [Op.opFinalize now])))) from rfl]
    rw [List.foldl_append, List.foldl_append, List.foldl_append, List.foldl_append]
    rw [show List.foldl (fun s o => step o s) st0 [Op.opInit]
        = ⟨⟨some (rendered []), none⟩,
            some ⟨(([] : List JVal)).length, ([] : List JVal)⟩⟩ from rfl]
    rw [commits_fold [JVal.jobj fa, JVal.jobj fb] [] [] none hmem2
      (by simp) (by rw [hkab]; simp [hab])]
    simp only [List.nil_append]
    have crash_init : List.foldl (fun s o => step o s)
        ⟨⟨some (rendered [JVal.jobj fa, JVal.jobj fb]), none⟩,
          some ⟨([JVal.jobj fa, JVal.jobj fb] : List JVal).length,
            keysOfL [JVal.jobj fa, JVal.jobj fb]⟩⟩ [Op.opCrash, Op.opInit]
        = ⟨⟨some (rendered []), none⟩,
            some ⟨(([] : List JVal)).length, ([] : List JVal)⟩⟩ := by
      simp only [List.foldl_cons, List.foldl_nil, step]
      rw [initStore_open [JVal.jobj fa, JVal.jobj fb] none none
        (fun r hr => ((hmem2 r hr).elim fun fs h => ⟨fs, h.choose_spec.1⟩))]
      rfl
    rw [crash_init]
    rw [commits_fold [JVal.jobj fa, JVal.jobj fc] [] [] none hmem3
      (by simp) (by rw [hkac]; simp [hac])]
    simp only [List.nil_append]
    rfl
  rw [hrun, finalize_some now _ ⟨2, keysOfL [JVal.jobj fa, JVal.jobj fc]⟩ rfl]
  refine ⟨by simp, ?_⟩
  have h := jsonLoads_rendered [JVal.jobj fa, JVal.jobj fc] ['\n'] []
    (by intro c hc; simp at hc; subst hc; decide)
  simp only [List.singleton_append] at h
  simpa [skipWs] using h

theorem claim_c2_witness :
    (objGet [("Case_No", jstr "A")] "Case_No" = some (jstr "A") ∧
      objGet [("Case_No", jstr "B")] "Case_No" = some (jstr "B") ∧
      objGet [("Case_No", jstr "C")] "Case_No" = some (jstr "C") ∧
      (jstr "A" : JVal) ≠ jstr "B" ∧ (jstr "A" : JVal) ≠ jstr "C") ∧
    ((run [Op.opInit, Op.opCommit (JVal.jobj [("Case_No", jstr "A")]),
        Op.opCommit (JVal.jobj [("Case_No", jstr "B")]), Op.opCrash, Op.opInit,
        Op.opCommit (JVal.jobj [("Case_No", jstr "A")]),
        Op.opCommit (JVal.jobj [("Case_No", jstr "C")]),
        Op.opFinalize "t"]).disk.file
      = some (rendered [JVal.jobj [("Case_No", jstr "A")],
          JVal.jobj [("Case_No", jstr "C")]] ++ ['\n', ']']) ∧
    jsonLoads (rendered [JVal.jobj [("Case_No", jstr "A")],
        JVal.jobj [("Case_No", jstr "C")]] ++ ['\n', ']'])
      = some (jarr [JVal.jobj [("Case_No", jstr "A")],
          JVal.jobj [("Case_No", jstr "C")]])) :=
  ⟨⟨by decide, by decide, by decide, by decide, by decide⟩,
    claim_c2_amended [("Case_No", jstr "A")] [("Case_No", jstr "B")]
      [("Case_No", jstr "C")] (jstr "A") (jstr "B") (jstr "C") "t"
      (by decide) (by decide) (by decide) (by decide) (by decide) (by decide)
      (by decide) (by decide) (by decide) (by decide) (by decide)⟩

theorem isPrefixOf_append_self (l t : List Char) : l.isPrefixOf (l ++ t) = true := by
  induction l with
  | nil => simp [List.isPrefixOf]
  | cons c cs ih => simp [List.isPrefixOf, ih]

/-- C8 fails on the code: a record committed before a crash has its bytes on
disk removed by the next `initialize_json_file` call, which truncates the
unterminated file to `[\n` — committed bytes are rewritten/removed by this
component, not merely appended after. -/
theorem claim_c8_counterexample :
    (run [Op.opInit, Op.opCommit recA]).disk.file
      = some ("[\n\x7b\n  \"Case_No\": \"A\"\n\x7d".data) ∧
    (run [Op.opInit, Op.opCommit recA, Op.opCrash, Op.opInit]).disk.file
      = some ("[\n".data) ∧
    ("[\n".data : List Char).length
      < ("[\n\x7b\n  \"Case_No\": \"A\"\n\x7d".data : List Char).length := by
  refine ⟨by decide, by decide, by decide⟩

/-- C8 amended: `write_case_incrementally` and `finalize_json_file` only ever
append to the file, and reopening a *finalized* file preserves it (the
rewritten content is the old content minus the closing `\n]`, a prefix of the
old bytes, with every record's bytes intact) — but reopening an
*unterminated* (crashed) file truncates it to `[\n`, destroying the
committed bytes. -/
theorem claim_c8_amended (r : JVal) (b : Bool) (st : StoreSt) (now : String)
    (rs : List JVal) (sm : Option Summary) (info0 : Option FileInfo)
    (hval : ∀ x ∈ rs, validRec x) :
    (∃ t, ((commit r b st).2).disk.file.getD [] = st.disk.file.getD [] ++ t) ∧
    (∃ t, ((finalize now st).2).disk.file.getD [] = st.disk.file.getD [] ++ t) ∧
    ((initStore ⟨⟨some (rendered rs ++ ['\n', ']']), sm⟩, info0⟩).disk.file
        = some (rendered rs) ∧
      (rendered rs).isPrefixOf (rendered rs ++ ['\n', ']']) = true) ∧
    (initStore ⟨⟨some (rendered rs), sm⟩, info0⟩).disk.file = some newArrFile := by
  refine ⟨commit_file_append r b st, ?_, ⟨?_, isPrefixOf_append_self _ _⟩, ?_⟩
  · cases hinfo : st.info with
    | none => exact ⟨[], by rw [finalize_noop now st hinfo]; simp⟩
    | some fi => exact ⟨['\n', ']'], by rw [finalize_some now st fi hinfo]; simp⟩
  · rw [initStore_closed rs sm info0 hval]
  · rw [initStore_open rs sm info0
      (fun x hx => ((hval x hx).elim fun fs h => ⟨fs, h.choose_spec.1⟩))]

theorem claim_c8_witness :
    (∀ x ∈ ([recA] : List JVal), validRec x) ∧
    ((∃ t, ((commit recB true (run [Op.opInit, Op.opCommit recA])).2).disk.file.getD []
        = (run [Op.opInit, Op.opCommit recA]).disk.file.getD [] ++ t) ∧
      (∃ t, ((finalize "t" (run [Op.opInit, Op.opCommit recA])).2).disk.file.getD []
        = (run [Op.opInit, Op.opCommit recA]).disk.file.getD [] ++ t) ∧
      ((initStore ⟨⟨some (rendered [recA] ++ ['\n', ']']), none⟩, none⟩).disk.file
          = some (rendered [recA]) ∧
        (rendered [recA]).isPrefixOf (rendered [recA] ++ ['\n', ']']) = true) ∧
      (initStore ⟨⟨some (rendered [recA]), none⟩, none⟩).disk.file
        = some newArrFile) := by
  have hv : ∀ x ∈ ([recA] : List JVal), validRec x := by
    intro x hx
    rcases List.mem_cons.mp hx with rfl | hx
    · exact ⟨[("Case_No", jstr "A")], jstr "A", rfl, by decide, by decide, by decide⟩
    · cases hx
  exact ⟨hv, claim_c8_amended recB true (run [Op.opInit, Op.opCommit recA]) "t"
    [recA] none none hv⟩
